import Mathlib

/-!
Shallow embedding of the engram-mcp memory engine (src/src/db/database.ts and
the tool layer in src/src/tools) for checking the natural-language
specification against the code.

Modelling conventions:
* SQLite TEXT timestamps produced by datetime('now') are totally ordered
  strings; they are modelled as natural numbers (`Nat`) compared with ≤,
  which preserves the chronological order used by every query.
* `randomUUID()` is externalised: operations that generate ids take the id
  as an explicit argument.  Generated ids are comma-free, which makes the
  path-string cycle guard of the recursive CTE equivalent to list
  membership.
* JSON columns: `tags` is stored as the parsed list (the engine always
  writes `JSON.stringify` of a normalized list and parses on read);
  `metadata` is an association list of key/value pairs with opaque string
  values (`json_extract(metadata, '$.' || k)` becomes an assoc lookup, and
  the literal comparison `metadata = '\x7b\x7d'` becomes emptiness).
* `REAL` link weights are modelled as rationals; no claim depends on
  floating-point rounding.
* The SQLite rowid is modelled explicitly (`Mem.rowid`), assigned in
  insertion order, because several ORDER BY clauses use it as tie-break.
-/

namespace Engram

/-- Structural worker for `dedupFirst`: `seen` holds the elements already
emitted. -/
def dedupFirstAux {α} [DecidableEq α] (seen : List α) : List α → List α
  | [] => []
  | a :: rest =>
    if seen.contains a then dedupFirstAux seen rest
    else a :: dedupFirstAux (a :: seen) rest

/-- Keep the first occurrence of every element, dropping later duplicates
(the behaviour of a JS `Set` built from a list, and of SQLite
`json_group_array(DISTINCT ...)` in scan order). -/
def dedupFirst {α} [DecidableEq α] (l : List α) : List α :=
  dedupFirstAux [] l

/-- Stable insertion: put `a` right before the first element `b` with
`le a b = true`. -/
def insertLe {α} (le : α → α → Bool) (a : α) : List α → List α
  | [] => [a]
  | b :: rest => if le a b then a :: b :: rest else b :: insertLe le a rest

/-- Insertion sort parameterised by a strict comes-before test; used to model
the various ORDER BY clauses (ties are left in scan order, matching SQLite's
unspecified tie order on the states our theorems touch). -/
def sortLe {α} (le : α → α → Bool) : List α → List α
  | [] => []
  | x :: xs => insertLe le x (sortLe le xs)

/-- Whitespace as matched by JS trim / the FTS tokenizer split. -/
def isWhite (c : Char) : Bool :=
  c == ' ' || c == '\t' || c == '\n' || c == '\r'

/-- JS String.prototype.trim, structurally over the underlying char list
(the core String.trim is position-based and is not kernel-reducible). -/
def jsTrim (s : String) : String :=
  ⟨((s.data.dropWhile isWhite).reverse.dropWhile isWhite).reverse⟩

/-- JS toLowerCase over the char list. -/
def jsToLower (s : String) : String :=
  ⟨s.data.map Char.toLower⟩

/-- JS String.prototype.slice(0, n) (code units ≈ chars here). -/
def strTake (s : String) (n : Nat) : String :=
  ⟨s.data.take n⟩

/-- Split a char list on runs of whitespace, dropping empty tokens — the
effect of query.split(/\\s+/).filter(Boolean). -/
def wordsAux : List Char → List Char → List (List Char)
  | [], cur => if cur.isEmpty then [] else [cur.reverse]
  | c :: cs, cur =>
    if isWhite c then
      if cur.isEmpty then wordsAux cs [] else cur.reverse :: wordsAux cs []
    else wordsAux cs (c :: cur)

/-- JSON metadata object: key ↦ opaque serialized value. -/
abbrev Metadata := List (String × String)

/-- A row of the `memories` table (schema.ts SCHEMA_SQL). -/
structure Mem where
  id : String
  content : String
  category : String
  tags : List String
  metadata : Metadata
  project : String
  created_at : Nat
  updated_at : Nat
  expires_at : Option Nat
  rowid : Nat
deriving DecidableEq, Repr

/-- A row of the `memory_links` table. -/
structure Link where
  from_id : String
  to_id : String
  relation : String
  weight : Rat
  auto_generated : Nat
  created_at : Nat
deriving DecidableEq, Repr

/-- A row of the `memory_history` table. -/
structure HistEntry where
  history_id : Nat
  memory_id : String
  operation : String
  content : String
  category : String
  tags : List String
  metadata : Metadata
  project : String
  expires_at : Option Nat
  changed_at : Nat
deriving DecidableEq, Repr

/-- The whole store: the three tables plus the AUTOINCREMENT counter for
history ids, the next rowid, and the instance's default project. -/
structure DB where
  memories : List Mem
  links : List Link
  history : List HistEntry
  nextHist : Nat
  nextRowid : Nat
  defaultProject : String
deriving Repr

/-- The empty store right after schema creation. -/
def emptyDB : DB :=
  { memories := [], links := [], history := [],
    nextHist := 1, nextRowid := 1, defaultProject := "default" }

/-- normalizeCategory: trim + lowercase, empty falls back to "general". -/
def normalizeCategory (category : Option String) : String :=
  let c := jsToLower (jsTrim (category.getD "general"))
  if c = "" then "general" else c

/-- normalizeTags: trim each, discard empty strings, deduplicate (Set). -/
def normalizeTags (tags : Option (List String)) : List String :=
  match tags with
  | none => []
  | some ts => dedupFirst ((ts.map jsTrim).filter (fun t => t ≠ ""))

/-- expires_at IS NULL OR expires_at > datetime('now'). -/
def isAlive (m : Mem) (now : Nat) : Bool :=
  match m.expires_at with
  | none => true
  | some e => now < e

/-- expires_at IS NOT NULL AND expires_at <= datetime('now'). -/
def isExpired (m : Mem) (now : Nat) : Bool :=
  match m.expires_at with
  | none => false
  | some e => e ≤ now

/-- The history row a trigger appends for operation `op` on row image `m`. -/
def mkHist (op : String) (hid : Nat) (m : Mem) (now : Nat) : HistEntry :=
  { history_id := hid, memory_id := m.id, operation := op,
    content := m.content, category := m.category, tags := m.tags,
    metadata := m.metadata, project := m.project,
    expires_at := m.expires_at, changed_at := now }

/-- stmtCreate (INSERT INTO memories ... RETURNING *) together with the
AFTER INSERT history trigger.  Fails with an IntegrityError when the
PRIMARY KEY `id` is already present. -/
def insertMemRow (db : DB) (m : Mem) (now : Nat) : Except String DB :=
  if db.memories.any (fun x => x.id == m.id) then
    .error "IntegrityError: UNIQUE constraint failed: memories.id"
  else
    .ok { db with
      memories := db.memories ++ [m],
      history := db.history ++ [mkHist "create" db.nextHist m now],
      nextHist := db.nextHist + 1,
      nextRowid := db.nextRowid + 1 }

/-- SELECT * FROM memories WHERE id = ? (ids are unique via PRIMARY KEY). -/
def getById (db : DB) (id : String) : Option Mem :=
  db.memories.find? (fun m => m.id == id)

/-- stmtUpdate (UPDATE memories SET content, category, tags, metadata,
expires_at, updated_at = datetime('now') WHERE id = ? RETURNING *) together
with the AFTER UPDATE history trigger.  Note: the statement does NOT touch
`project`, `created_at` or `rowid`. -/
def applyUpdateRow (db : DB) (id : String) (content category : String)
    (tags : List String) (metadata : Metadata) (expires : Option Nat)
    (now : Nat) : DB × Option Mem :=
  match db.memories.find? (fun m => m.id == id) with
  | none => (db, none)
  | some old =>
    let m : Mem :=
      { old with content := content, category := category, tags := tags,
                 metadata := metadata, expires_at := expires,
                 updated_at := now }
    ({ db with
        memories := db.memories.map (fun x => if x.id == id then m else x),
        history := db.history ++ [mkHist "update" db.nextHist m now],
        nextHist := db.nextHist + 1 }, some m)

/-- CreateMemoryInput (types/memory.ts).  `expires_at` collapses omitted and
null (create does `input.expires_at ?? null`). -/
structure CreateInput where
  content : String
  category : Option String := none
  tags : Option (List String) := none
  metadata : Option Metadata := none
  project : Option String := none
  expires_at : Option Nat := none
  auto_link : Option Bool := none
  deduplicate : Option Bool := none

/-- The observable effect of `autoLink` on the `memory_links` table: the
resulting table plus a possibly raised error.  In the source `autoLink` only
reads and upserts `memory_links`; any exception it raises after some of its
upserts have run leaves those rows in place. -/
abbrev AutoLinkFn := DB → Mem → List Link × Option String

/-- An auto-link run that infers nothing and does not fail. -/
def noAutoLink : AutoLinkFn := fun db _ => (db.links, none)

/-- The normalized row create is about to insert. -/
def createRow (db : DB) (id : String) (inp : CreateInput) (now : Nat) : Mem :=
  { id := id,
    content := jsTrim inp.content,
    category := normalizeCategory inp.category,
    tags := normalizeTags inp.tags,
    metadata := inp.metadata.getD [],
    project := inp.project.getD db.defaultProject,
    created_at := now, updated_at := now,
    expires_at := inp.expires_at,
    rowid := db.nextRowid }

/-- MemoryDatabase.create without the auto-link step: normalization plus the
prepared INSERT. -/
def createCore (db : DB) (id : String) (inp : CreateInput) (now : Nat) :
    Except String (DB × Mem) :=
  (insertMemRow db (createRow db id inp now) now).map
    (fun db1 => (db1, createRow db id inp now))

/-- MemoryDatabase.create: insert, then — unless `auto_link === false` —
run auto-link inside try/catch: the links table ends up as the inference
left it, and a reported failure is swallowed. -/
def create (al : AutoLinkFn) (db : DB) (id : String) (inp : CreateInput)
    (now : Nat) : Except String (DB × Mem) :=
  match createCore db id inp now with
  | .error e => .error e
  | .ok (db1, m) =>
    if inp.auto_link = some false then .ok (db1, m)
    else
      let links2 := (al db1 m).1
      .ok ({ db1 with links := links2 }, m)

/-- UpdateMemoryInput: `expires_at` distinguishes omitted (`none`), null
(`some none`) and a value (`some (some t)`). -/
structure UpdateInput where
  content : Option String := none
  category : Option String := none
  tags : Option (List String) := none
  metadata : Option Metadata := none
  expires_at : Option (Option Nat) := none

/-- MemoryDatabase.update: merge over the existing row, then stmtUpdate. -/
def update (db : DB) (id : String) (inp : UpdateInput) (now : Nat) :
    Option (DB × Mem) :=
  match getById db id with
  | none => none
  | some ex =>
    let content := jsTrim (inp.content.getD ex.content)
    let category := match inp.category with
      | some c => normalizeCategory (some c)
      | none => ex.category
    let tags := match inp.tags with
      | some t => normalizeTags (some t)
      | none => ex.tags
    let metadata := inp.metadata.getD ex.metadata
    let expires := match inp.expires_at with
      | some v => v
      | none => ex.expires_at
    let (db1, m?) := applyUpdateRow db id content category tags metadata expires now
    m?.map (fun m => (db1, m))

/-- ON DELETE CASCADE on both link endpoints. -/
def cascadeLinks (links : List Link) (id : String) : List Link :=
  links.filter (fun l => !(l.from_id == id) && !(l.to_id == id))

/-- MemoryDatabase.delete: stmtDelete plus the AFTER DELETE history trigger
(pre-image) and the foreign-key cascade.  Returns whether a row was removed. -/
def deleteMem (db : DB) (id : String) (now : Nat) : DB × Bool :=
  match db.memories.find? (fun m => m.id == id) with
  | none => (db, false)
  | some old =>
    ({ db with
        memories := db.memories.filter (fun m => !(m.id == id)),
        links := cascadeLinks db.links id,
        history := db.history ++ [mkHist "delete" db.nextHist old now],
        nextHist := db.nextHist + 1 }, true)

/-- better-sqlite3 `db.transaction(fn)`: run `fn`; commit its state on
success, roll the state back to the caller's snapshot when `fn` throws. -/
def transaction {α} (f : DB → Except String (DB × α)) (db : DB) :
    DB × Except String α :=
  match f db with
  | .ok (db1, a) => (db1, .ok a)
  | .error e => (db, .error e)

/-- MemoryDatabase.createBatch: `inputs.map(create)` inside one transaction.
The fresh UUIDs are supplied as the parallel list `ids`. -/
def createBatch (al : AutoLinkFn) (db : DB) (ids : List String)
    (inputs : List CreateInput) (now : Nat) : DB × Except String (List Mem) :=
  if inputs.isEmpty then (db, .ok []) else
  transaction (fun db0 =>
    (List.zip ids inputs).foldlM (fun (acc : DB × List Mem) (item : String × CreateInput) =>
      (create al acc.1 item.1 item.2 now).map (fun (db1, m) => (db1, acc.2 ++ [m])))
      (db0, [])) db

/-- One iteration of updateBatch's loop. -/
def updateBatchStep (now : Nat) (acc : DB × List Mem × List String)
    (item : String × UpdateInput) : DB × List Mem × List String :=
  match update acc.1 item.1 item.2 now with
  | some (db1, m) => (db1, acc.2.1 ++ [m], acc.2.2)
  | none => (acc.1, acc.2.1, acc.2.2 ++ [item.1])

/-- MemoryDatabase.updateBatch: per-item update inside one transaction;
a missing id goes to `notFound` instead of aborting. -/
def updateBatch (db : DB) (items : List (String × UpdateInput)) (now : Nat) :
    DB × Except String (List Mem × List String) :=
  if items.isEmpty then (db, .ok ([], [])) else
  transaction (fun db0 =>
    .ok (items.foldl (updateBatchStep now) (db0, [], []))) db

/-- MemoryDatabase.deleteBatch: per-id delete inside one transaction;
ids whose row is absent are collected in `notFound`. -/
def deleteBatchStep (now : Nat) (acc : DB × Nat × List String)
    (id : String) : DB × Nat × List String :=
  match deleteMem acc.1 id now with
  | (db1, true) => (db1, acc.2.1 + 1, acc.2.2)
  | (db1, false) => (db1, acc.2.1, acc.2.2 ++ [id])

def deleteBatch (db : DB) (ids : List String) (now : Nat) :
    DB × Except String (Nat × List String) :=
  if ids.isEmpty then (db, .ok (0, [])) else
  transaction (fun db0 =>
    .ok (ids.foldl (deleteBatchStep now) (db0, 0, []))) db

/-- ImportMemoryRow (types/memory.ts). -/
structure ImportRow where
  id : Option String := none
  content : String
  category : Option String := none
  tags : Option (List String) := none
  metadata : Option Metadata := none
  project : Option String := none

/-- One step of MemoryDatabase.importBatch's loop.  `upsert` is the mode
flag; `freshId` is the UUID generated for this row when it is inserted.
State: (db, ids so far, skipped so far). -/
def importStep (al : AutoLinkFn) (upsert : Bool) (now : Nat)
    (acc : DB × List String × Nat) (item : ImportRow × String) :
    Except String (DB × List String × Nat) :=
  let (row, freshId) := item
  if jsTrim row.content = "" then .ok (acc.1, acc.2.1, acc.2.2 + 1)
  else
    let tryUpdate : Option (DB × Mem) :=
      match upsert, row.id with
      | true, some rid =>
        match getById acc.1 rid with
        | some _ => update acc.1 rid
            { content := some row.content, category := row.category,
              tags := row.tags, metadata := row.metadata } now
        | none => none
      | _, _ => none
    match tryUpdate with
    | some (db1, m) => .ok (db1, acc.2.1 ++ [m.id], acc.2.2)
    | none =>
      (create al acc.1 freshId
        { content := row.content, category := row.category, tags := row.tags,
          metadata := row.metadata, project := row.project } now).map
        (fun (db1, m) => (db1, acc.2.1 ++ [m.id], acc.2.2))

/-- MemoryDatabase.importBatch: one transaction over the rows; empty-content
rows are skipped and counted; mode `upsert` updates an existing provided id,
everything else inserts under a fresh id. -/
def importBatch (al : AutoLinkFn) (db : DB) (rows : List ImportRow)
    (freshIds : List String) (upsert : Bool) (now : Nat) :
    DB × Except String (Nat × Nat × List String) :=
  if rows.isEmpty then (db, .ok (0, 0, [])) else
  transaction (fun db0 =>
    ((List.zip rows freshIds).foldlM (importStep al upsert now) (db0, [], 0)).map
      (fun (db1, ids, skipped) => (db1, ids.length, skipped, ids))) db

/-- Sort orders shared by list and search. -/
inductive SortBy
  | created_at_desc
  | created_at_asc
  | updated_at_desc
deriving DecidableEq, Repr

/-- ORDER BY created_at DESC, rowid DESC / ASC, ASC / updated_at DESC, rowid
DESC as a comes-strictly-before test on rows. -/
def sortKeyBefore (sb : SortBy) (a b : Mem) : Bool :=
  match sb with
  | .created_at_desc =>
      b.created_at < a.created_at ||
      (b.created_at == a.created_at && b.rowid < a.rowid)
  | .created_at_asc =>
      a.created_at < b.created_at ||
      (a.created_at == b.created_at && a.rowid < b.rowid)
  | .updated_at_desc =>
      b.updated_at < a.updated_at ||
      (b.updated_at == a.updated_at && b.rowid < a.rowid)

/-- ListMemoriesInput. -/
structure ListInput where
  category : Option String := none
  tag : Option String := none
  project : Option String := none
  limit : Nat := 10
  offset : Nat := 0
  metadata_key : Option String := none
  metadata_value : Option String := none
  sort_by : Option SortBy := none
  created_after : Option Nat := none
  created_before : Option Nat := none
  updated_after : Option Nat := none
  updated_before : Option Nat := none

/-- json_extract(metadata, '$.' || key). -/
def metaLookup (md : Metadata) (k : String) : Option String :=
  (md.find? (fun p => p.1 == k)).map (fun p => p.2)

/-- The WHERE clause built by listWithTotal.  JS truthiness: an empty-string
`category` or `tag` pushes no condition; the metadata condition requires both
key and value to be present; the date bounds are always present as
(? IS NULL OR column >= / <= ?). -/
def listFilter (db : DB) (now : Nat) (inp : ListInput) (m : Mem) : Bool :=
  isAlive m now &&
  m.project == inp.project.getD db.defaultProject &&
  (match inp.category with
   | none => true
   | some c => c == "" || m.category == jsToLower (jsTrim c)) &&
  (match inp.tag with
   | none => true
   | some t => t == "" || m.tags.contains t) &&
  (match inp.metadata_key, inp.metadata_value with
   | some k, some v => metaLookup m.metadata k == some v
   | _, _ => true) &&
  (match inp.created_after with | none => true | some t => t ≤ m.created_at) &&
  (match inp.created_before with | none => true | some t => m.created_at ≤ t) &&
  (match inp.updated_after with | none => true | some t => t ≤ m.updated_at) &&
  (match inp.updated_before with | none => true | some t => m.updated_at ≤ t)

/-- MemoryDatabase.listWithTotal: filtered window-count query; total is the
filtered count, rows are sorted then paginated. -/
def listWithTotal (db : DB) (now : Nat) (inp : ListInput) :
    List Mem × Nat :=
  let rows := db.memories.filter (listFilter db now inp)
  let sorted := sortLe (sortKeyBefore (inp.sort_by.getD .created_at_desc)) rows
  ((sorted.drop inp.offset).take inp.limit, rows.length)

/-- buildFtsQuery's tokenization gate: split on whitespace, drop empties;
an empty token set short-circuits to an empty result. -/
def ftsTerms (q : String) : List String :=
  (wordsAux q.data []).map (fun cs => ⟨cs⟩)

/-- SearchMemoriesInput (the compiled FTS MATCH itself is treated as an
oracle `ftsMatch`; `mode`/`near_distance` only shape that oracle). -/
structure SearchInput where
  query : String
  category : Option String := none
  tag : Option String := none
  project : Option String := none
  limit : Nat := 10
  offset : Nat := 0
  metadata_key : Option String := none
  metadata_value : Option String := none
  sort_by : Option SortBy := none

/-- The non-FTS part of searchWithTotal's WHERE clause. -/
def searchFilter (db : DB) (now : Nat) (inp : SearchInput) (m : Mem) : Bool :=
  m.project == inp.project.getD db.defaultProject &&
  isAlive m now &&
  (match inp.category with
   | none => true
   | some c => c == "" || m.category == jsToLower (jsTrim c)) &&
  (match inp.tag with
   | none => true
   | some t => t == "" || m.tags.contains t) &&
  (match inp.metadata_key, inp.metadata_value with
   | some k, some v => metaLookup m.metadata k == some v
   | _, _ => true) &&
  true

/-- MemoryDatabase.searchWithTotal.  `ftsMatch` is the FTS5 MATCH oracle and
`rankBefore` the ORDER BY rank oracle (default sort).  Date-range bounds are
omitted here: no claim constrains them for search, and they mirror
listFilter exactly. -/
def searchWithTotal (ftsMatch : Mem → Bool) (rankBefore : Mem → Mem → Bool)
    (db : DB) (now : Nat) (inp : SearchInput) : List Mem × Nat :=
  if ftsTerms inp.query = [] then ([], 0)
  else
    let rows := db.memories.filter (fun m => ftsMatch m && searchFilter db now inp m)
    let sorted := match inp.sort_by with
      | none => sortLe rankBefore rows
      | some sb => sortLe (sortKeyBefore sb) rows
    ((sorted.drop inp.offset).take inp.limit, rows.length)

/-- MemorySlim projection used by the context snapshot. -/
structure MemorySlim where
  id : String
  content : String
  category : String
  tags : List String
  project : String
deriving DecidableEq, Repr

structure CatSnap where
  count : Nat
  recent : List MemorySlim
deriving DecidableEq, Repr

structure Snapshot where
  total : Nat
  by_category : List (String × CatSnap)
  tags_index : List (String × Nat)
deriving DecidableEq, Repr

/-- MemoryDatabase.getContextSnapshot: one window-function pass over the
alive rows of the project (cat_count + recency rank rn), then the optional
tag frequency index. -/
def getContextSnapshot (db : DB) (now : Nat) (recentPerCategory : Nat)
    (contentPreviewLen : Option Nat) (includeTagsIndex : Bool)
    (project : Option String) : Snapshot :=
  let proj := project.getD db.defaultProject
  let rows := db.memories.filter (fun m => m.project == proj && isAlive m now)
  let cats := dedupFirst (rows.map (fun m => m.category))
  let catRows := fun c => rows.filter (fun m => m.category == c)
  let slim := fun (m : Mem) =>
    { id := m.id,
      content := match contentPreviewLen with
        | some n => strTake m.content n
        | none => m.content,
      category := m.category, tags := m.tags, project := m.project : MemorySlim }
  let by_category := cats.map (fun c =>
    (c, { count := (catRows c).length,
          recent := ((sortLe (sortKeyBefore .created_at_desc) (catRows c)).take
                      recentPerCategory).map slim : CatSnap }))
  let total := (by_category.map (fun p => p.2.count)).sum
  let pairs := rows.flatMap (fun m => m.tags)
  let tags_index := if includeTagsIndex then
      (dedupFirst pairs).map (fun t => (t, pairs.count t))
    else []
  { total := total, by_category := by_category, tags_index := tags_index }

/-- StatsResult as returned by getStats.  `avg_content_len` (a SQLite REAL
average) is not modelled; no claim mentions it. -/
structure Stats where
  total : Nat
  by_category : List (String × Nat)
  top_tags : List (String × Nat)
  oldest : Option Mem
  newest : Option Mem
  memories_without_tags : Nat
  memories_without_metadata : Nat
deriving Repr

/-- MemoryDatabase.getStats.  Note: every query here filters only on
`project = ?`; there is no expires_at/alive condition in the source. -/
def getStats (db : DB) (project : Option String) : Stats :=
  let proj := project.getD db.defaultProject
  let rows := db.memories.filter (fun m => m.project == proj)
  let cats := dedupFirst (rows.map (fun m => m.category))
  let counts := cats.map (fun c => (c, (rows.filter (fun m => m.category == c)).length))
  let by_category := sortLe (fun a b => b.2 < a.2) counts
  let total := (counts.map (fun p => p.2)).sum
  let pairs := rows.flatMap (fun m => m.tags)
  let tagCounts := (dedupFirst pairs).map (fun t => (t, pairs.count t))
  let top_tags := (sortLe (fun a b => b.2 < a.2) tagCounts).take 20
  { total := total,
    by_category := by_category,
    top_tags := top_tags,
    oldest := (sortLe (sortKeyBefore .created_at_asc) rows).head?,
    newest := (sortLe (sortKeyBefore .created_at_desc) rows).head?,
    memories_without_tags :=
      (rows.filter (fun m => m.tags.isEmpty)).length,
    memories_without_metadata :=
      (rows.filter (fun m => m.metadata.isEmpty)).length }

/-- MemoryDatabase.purgeExpired: DELETE ... WHERE expires_at IS NOT NULL AND
expires_at <= datetime('now') RETURNING id; the AFTER DELETE trigger appends
one history row per purged memory and the foreign-key cascade drops every
incident link. -/
def purgeExpired (db : DB) (now : Nat) : DB × Nat × List String :=
  let expired := db.memories.filter (fun m => isExpired m now)
  let ids := expired.map (fun m => m.id)
  let db1 : DB :=
    { db with
      memories := db.memories.filter (fun m => !(isExpired m now)),
      links := db.links.filter (fun l =>
        !(ids.contains l.from_id) && !(ids.contains l.to_id)),
      history := db.history ++
        (expired.enum.map (fun p => mkHist "delete" (db.nextHist + p.1) p.2 now)),
      nextHist := db.nextHist + expired.length }
  (db1, ids.length, ids)

/-- ORDER BY changed_at DESC, history_id DESC. -/
def histBefore (a b : HistEntry) : Bool :=
  b.changed_at < a.changed_at ||
  (b.changed_at == a.changed_at && b.history_id < a.history_id)

/-- MemoryDatabase.getHistory: count plus newest-first page. -/
def getHistory (db : DB) (memory_id : String) (limit : Nat) (offset : Nat) :
    Nat × List HistEntry :=
  let all := db.history.filter (fun h => h.memory_id == memory_id)
  (all.length, ((sortLe histBefore all).drop offset).take limit)

/-- MemoryDatabase.restoreMemory: null when the memory is gone or the
history row does not belong to it; otherwise stmtUpdate applied to the raw
snapshot columns (content, category, tags, metadata, expires_at — project is
not part of stmtUpdate's SET list). -/
def restoreMemory (db : DB) (memory_id : String) (history_id : Nat)
    (now : Nat) : Option (DB × Mem) :=
  match getById db memory_id with
  | none => none
  | some _ =>
    match db.history.find? (fun h =>
        h.history_id == history_id && h.memory_id == memory_id) with
    | none => none
    | some h =>
      let (db1, m?) := applyUpdateRow db memory_id h.content h.category
        h.tags h.metadata h.expires_at now
      m?.map (fun m => (db1, m))

structure RenameTagResult where
  updated : Nat
  old_tag : String
  new_tag : String
deriving DecidableEq, Repr

/-- The rewritten row of renameTag's UPDATE: CASE-map the tag array, then
json_group_array(DISTINCT ...) in scan order, and bump updated_at. -/
def renameRow (oldTag newTag : String) (now : Nat) (m : Mem) : Mem :=
  { m with
    tags := dedupFirst (m.tags.map (fun v => if v == oldTag then newTag else v)),
    updated_at := now }

/-- MemoryDatabase.renameTag (engine): UPDATE every memory of the project
whose tags contain oldTag, RETURNING id; one AFTER UPDATE history row fires
per updated memory.  There is no old = new short-circuit here. -/
def renameTag (db : DB) (oldTag newTag : String) (project : Option String)
    (now : Nat) : DB × RenameTagResult :=
  let proj := project.getD db.defaultProject
  let hit := fun (m : Mem) => m.project == proj && m.tags.contains oldTag
  let hits := db.memories.filter hit
  let db1 : DB :=
    { db with
      memories := db.memories.map (fun m => if hit m then renameRow oldTag newTag now m else m),
      history := db.history ++
        (hits.enum.map (fun p =>
          mkHist "update" (db.nextHist + p.1) (renameRow oldTag newTag now p.2) now)),
      nextHist := db.nextHist + hits.length }
  (db1, { updated := hits.length, old_tag := oldTag, new_tag := newTag })

/-- registerRenameTag's handler (tools/rename-tag.ts): when old_tag and
new_tag coincide it returns updated = 0 without calling the engine. -/
def renameTagTool (db : DB) (oldTag newTag : String) (now : Nat) :
    DB × RenameTagResult :=
  if oldTag == newTag then
    (db, { updated := 0, old_tag := oldTag, new_tag := newTag })
  else renameTag db oldTag newTag none now

/-- MemoryDatabase.migrateToProject: UPDATE memories SET project, updated_at
WHERE the tags array contains the tag (across all projects), RETURNING id. -/
def migrateToProject (db : DB) (tag project : String) (now : Nat) :
    DB × Nat :=
  let hit := fun (m : Mem) => m.tags.contains tag
  let hits := db.memories.filter hit
  let moved := fun (m : Mem) => { m with project := project, updated_at := now }
  let db1 : DB :=
    { db with
      memories := db.memories.map (fun m => if hit m then moved m else m),
      history := db.history ++
        (hits.enum.map (fun p => mkHist "update" (db.nextHist + p.1) (moved p.2) now)),
      nextHist := db.nextHist + hits.length }
  (db1, hits.length)

/-- MemoryDatabase.linkMemories: INSERT OR REPLACE INTO memory_links
(from_id, to_id, relation, weight, auto_generated) — created_at is not in
the column list, so the replacing row takes the column default
datetime('now').  Foreign keys require both endpoints to exist. -/
def linkMemories (db : DB) (from_id to_id : String)
    (relation : Option String) (weight : Option Rat)
    (auto_generated : Option Nat) (now : Nat) : Except String (DB × Link) :=
  if !(db.memories.any (fun m => m.id == from_id)) then
    .error "IntegrityError: FOREIGN KEY constraint failed"
  else if !(db.memories.any (fun m => m.id == to_id)) then
    .error "IntegrityError: FOREIGN KEY constraint failed"
  else
    let l : Link :=
      { from_id := from_id, to_id := to_id,
        relation := relation.getD "related",
        weight := weight.getD 1,
        auto_generated := auto_generated.getD 0,
        created_at := now }
    .ok ({ db with links :=
            (db.links.filter (fun x =>
              !(x.from_id == from_id && x.to_id == to_id))) ++ [l] }, l)

/-- SELECT * FROM memory_links WHERE from_id = ? AND to_id = ?. -/
def getLink (db : DB) (from_id to_id : String) : Option Link :=
  db.links.find? (fun l => l.from_id == from_id && l.to_id == to_id)

structure ListLinksInput where
  from_id : Option String := none
  to_id : Option String := none
  relation : Option String := none
  limit : Nat := 50
  offset : Nat := 0

/-- ORDER BY created_at DESC on edges (no tie-break column in the source). -/
def linkBefore (a b : Link) : Bool := b.created_at < a.created_at

/-- MemoryDatabase.listLinks: optional from/to/relation filters (JS
truthiness: empty strings push no condition), count plus a page ordered by
edge created_at DESC. -/
def listLinks (db : DB) (inp : ListLinksInput) : Nat × List Link :=
  let cond := fun (l : Link) =>
    (match inp.from_id with
     | none => true | some f => f == "" || l.from_id == f) &&
    (match inp.to_id with
     | none => true | some t => t == "" || l.to_id == t) &&
    (match inp.relation with
     | none => true | some r => r == "" || l.relation == r)
  let rows := db.links.filter cond
  (rows.length, ((sortLe linkBefore rows).drop inp.offset).take inp.limit)

/-- One row of the recursive CTE `traverse(to_id, relation, weight,
auto_generated, depth, path)`.  The comma-delimited path string is modelled
as the list of visited ids (ids are comma-free UUIDs, so
`path NOT LIKE '%,' || id || ',%'` is exactly list membership). -/
structure TravRow where
  to_id : String
  relation : String
  weight : Rat
  auto_generated : Nat
  depth : Nat
  path : List String
deriving DecidableEq, Repr

/-- AND ml.relation = ? when a relation filter is present. -/
def relOk (relF : Option String) (l : Link) : Bool :=
  match relF with
  | none => true
  | some r => l.relation == r

/-- The anchor member of the CTE: direct outgoing links of the origin;
the path starts with the origin so cycles back to it are blocked. -/
def travAnchor (links : List Link) (relF : Option String) (origin : String) :
    List TravRow :=
  (links.filter (fun l => l.from_id == origin && relOk relF l)).map
    (fun l => { to_id := l.to_id, relation := l.relation, weight := l.weight,
                auto_generated := l.auto_generated, depth := 1,
                path := [l.from_id, l.to_id] })

/-- The recursive member of the CTE applied to one frontier row: follow
outgoing links while depth < maxDepth, skipping targets already on the path. -/
def travStep (links : List Link) (relF : Option String) (maxDepth : Nat)
    (r : TravRow) : List TravRow :=
  if r.depth < maxDepth then
    (links.filter (fun l =>
        l.from_id == r.to_id && relOk relF l && !(r.path.contains l.to_id))).map
      (fun l => { to_id := l.to_id, relation := l.relation, weight := l.weight,
                  auto_generated := l.auto_generated, depth := r.depth + 1,
                  path := r.path ++ [l.to_id] })
  else []

/-- Iterated expansion: all CTE rows produced from `front` within `fuel`
more rounds (the CTE fixpoint is reached after maxDepth rounds because
depth strictly increases and is capped). -/
def travRows (links : List Link) (relF : Option String) (maxDepth : Nat) :
    Nat → List TravRow → List TravRow
  | 0, front => front
  | n + 1, front =>
    front ++ travRows links relF maxDepth n
      (front.flatMap (travStep links relF maxDepth))

/-- The full content of the recursive CTE. -/
def traverse (links : List Link) (relF : Option String) (origin : String)
    (maxDepth : Nat) : List TravRow :=
  travRows links relF maxDepth maxDepth (travAnchor links relF origin)

/-- MIN(depth) within one GROUP BY to_id group (group known nonempty). -/
def minDepthFor (rows : List TravRow) (tid : String) : Nat :=
  match (rows.filter (fun r => r.to_id == tid)).map (fun r => r.depth) with
  | [] => 0
  | d :: ds => ds.foldl Nat.min d

/-- One emitted row of getRelatedDeep. -/
structure DeepResult where
  memory : Mem
  relation : String
  depth : Nat
  weight : Rat
  auto_generated : Nat
deriving DecidableEq, Repr

/-- MemoryDatabase.getRelatedDeep: clamp max_depth to [1,5], run the CTE,
GROUP BY to_id taking MIN(depth) (bare columns come from a row attaining
the MIN, per SQLite), JOIN memories, filter to the requested project,
ORDER BY min depth ascending, LIMIT.  The reported total is the length of
the returned (limited) page. -/
def getRelatedDeep (db : DB) (id : String) (max_depth : Nat)
    (relF : Option String) (project : Option String) (limit : Nat) :
    Nat × List DeepResult :=
  let proj := project.getD db.defaultProject
  let depth := min 5 (max 1 max_depth)
  let rows := traverse db.links relF id depth
  let ids := dedupFirst (rows.map (fun r => r.to_id))
  let joined := ids.filterMap (fun tid =>
    let d := minDepthFor rows tid
    match rows.find? (fun r => r.to_id == tid && r.depth == d),
          getById db tid with
    | some rep, some m =>
      if m.project == proj then
        some { memory := m, relation := rep.relation, depth := d,
               weight := rep.weight, auto_generated := rep.auto_generated : DeepResult }
      else none
    | _, _ => none)
  let results := (sortLe (fun a b => a.depth < b.depth) joined).take limit
  (results.length, results)

/-! Specification-side notion of hop distance for getRelatedDeep: the set of
ids reachable from the origin in at most `n` outgoing hops through the
relation-filtered link graph.  This is the reference against which the
CTE's MIN(depth) is compared; it is not part of the source. -/

/-- Outgoing neighbours through relation-admissible edges. -/
def nexts (links : List Link) (relF : Option String) (a : String) :
    List String :=
  (links.filter (fun l => l.from_id == a && relOk relF l)).map
    (fun l => l.to_id)

/-- Ids reachable from `origin` in at most `n` hops. -/
def reachSet (links : List Link) (relF : Option String) (origin : String) :
    Nat → List String
  | 0 => [origin]
  | n + 1 =>
    let R := reachSet links relF origin n
    R ++ R.flatMap (nexts links relF)

/-- Zod's ContentField (tools/schemas.ts): a string of length at least 1 and
at most 10000.  The length check runs on the raw string, before any trim. -/
def contentFieldOk (s : String) : Bool :=
  1 ≤ s.length && s.length ≤ 10000

/-- registerSaveMemory's handler (tools/save-memory.ts): validate the input
against MemoryInputSchema, then call MemoryDatabase.create. -/
def saveMemoryTool (al : AutoLinkFn) (db : DB) (id : String)
    (inp : CreateInput) (now : Nat) : Except String (DB × Mem) :=
  if contentFieldOk inp.content then create al db id inp now
  else .error "InvalidInput: empty content"

/-- Modelled from the spec: the `deduplicate` option of create is declared on
CreateMemoryInput (src/unnamed/part_015) but the branch of
MemoryDatabase.create implementing it is not among the provided sources.
Following the spec sentence "compute a hash of the trimmed content and, if a
live memory with the same hash exists in the same project, return that row
flagged as `_deduplicated`.  Skipped rows bypass auto-link", with the SHA-256
fingerprint of the trimmed content modelled as the trimmed content itself
(a collision-free digest).  The boolean in the result is the
`_deduplicated` flag. -/
def createWithDedup (al : AutoLinkFn) (db : DB) (id : String)
    (inp : CreateInput) (now : Nat) : Except String (DB × Mem × Bool) :=
  if inp.deduplicate = some true then
    match db.memories.find? (fun m =>
        m.project == inp.project.getD db.defaultProject && isAlive m now &&
        m.content == jsTrim inp.content) with
    | some m => .ok (db, m, true)
    | none => (create al db id inp now).map (fun p => (p.1, p.2, false))
  else (create al db id inp now).map (fun p => (p.1, p.2, false))

/-! ## Concrete states used by counterexamples and witnesses -/

/-- An auto-link run that fails after inferring nothing. -/
def failingAutoLink : AutoLinkFn := fun db _ => (db.links, some "autoLink failure")

/-- A bare memory row for concrete examples. -/
def exMem (i : String) (proj : String) (e : Option Nat) (tags : List String)
    (cat : String) (upd : Nat) (rowid : Nat) : Mem :=
  { id := i, content := "c " ++ i, category := cat, tags := tags,
    metadata := [], project := proj, created_at := 0, updated_at := upd,
    expires_at := e, rowid := rowid }

/-- A store with one memory in the default project carrying tag "a". -/
def dbTagA : DB := { emptyDB with memories := [exMem "m1" "default" none ["a"] "general" 0 1] }

/-- A store with one expired and one alive memory (relative to now = 5). -/
def dbExpired : DB :=
  { emptyDB with memories :=
      [exMem "m1" "default" (some 3) [] "code" 0 1,
       exMem "m2" "default" none [] "code" 0 2] }

/-- A store with a self-loop link on memory "a". -/
def dbSelfLoop : DB :=
  { emptyDB with
    memories := [exMem "a" "default" none [] "general" 0 1],
    links := [{ from_id := "a", to_id := "a", relation := "related",
                weight := 1, auto_generated := 0, created_at := 0 }] }

/-- Create a memory in project "p1" with tag "t", then migrate it to project
"p2": history row 1 is the create snapshot with project "p1", while the
stored row now has project "p2". -/
def dbMigrated : DB :=
  match create noAutoLink emptyDB "m1"
      { content := "v1", tags := some ["t"], project := some "p1" } 1 with
  | .ok (db1, _) => (migrateToProject db1 "t" "p2" 2).1
  | .error _ => emptyDB

/-- Two linked memories with an old manual edge (created_at = 0). -/
def dbOldLink : DB :=
  { emptyDB with
    memories := [exMem "a" "default" none [] "general" 0 1,
                 exMem "b" "default" none [] "general" 0 2],
    links := [{ from_id := "a", to_id := "b", relation := "caused",
                weight := 1, auto_generated := 1, created_at := 0 }] }


/-- Proof-side invariant of CTE rows: depth bounds, path shape, and the
fact that the vertex at path position i is reachable in at most i hops. -/
def rowOk (links : List Link) (relF : Option String) (origin : String)
    (maxDepth : Nat) (r : TravRow) : Prop :=
  1 ≤ r.depth ∧ r.depth ≤ maxDepth ∧
  r.path.length = r.depth + 1 ∧
  r.path.head? = some origin ∧
  r.path.getLast? = some r.to_id ∧
  (∀ (i : Nat) (w : String), r.path[i]? = some w →
    w ∈ reachSet links relF origin i)

/-- k-fold expansion of a CTE frontier (proof-side view of travRows). -/
def stepIter (links : List Link) (relF : Option String) (maxDepth : Nat) :
    Nat → List TravRow → List TravRow
  | 0, front => front
  | k + 1, front =>
    stepIter links relF maxDepth k (front.flatMap (travStep links relF maxDepth))

/-- Origin memory in project "p1", a link to a memory in project "default":
getRelatedDeep scoped to the requested project, not the origin's. -/
def dbCrossProj : DB :=
  { emptyDB with
    memories := [exMem "a" "p1" none [] "general" 0 1,
                 exMem "b" "default" none [] "general" 0 2],
    links := [{ from_id := "a", to_id := "b", relation := "related",
                weight := 1, auto_generated := 0, created_at := 0 }] }

/-- The row getRelatedDeep emits for memory b of dbOldLink. -/
def eB : DeepResult :=
  { memory := exMem "b" "default" none [] "general" 0 2,
    relation := "caused", depth := 1, weight := 1, auto_generated := 1 }

/-- The per-id row builder inside getRelatedDeep's join (the body of its
filterMap, factored out for the proofs; `getRelatedDeep_eq_expanded`
checks it is definitionally the same function). -/
def deepRowFor (db : DB) (rows : List TravRow) (proj tid : String) :
    Option DeepResult :=
  let d := minDepthFor rows tid
  match rows.find? (fun r => r.to_id == tid && r.depth == d),
        getById db tid with
  | some rep, some m =>
    if m.project == proj then
      some { memory := m, relation := rep.relation, depth := d,
             weight := rep.weight, auto_generated := rep.auto_generated }
    else none
  | _, _ => none

/-! ## Helper lemmas -/

theorem mem_dedupFirstAux {α} [DecidableEq α] (l : List α) :
    ∀ (seen : List α) (a : α),
      a ∈ dedupFirstAux seen l ↔ (a ∈ l ∧ a ∉ seen) := by
  induction l with
  | nil => intro seen a; simp [dedupFirstAux]
  | cons x rest ih =>
    intro seen a
    simp only [dedupFirstAux]
    by_cases hx : seen.contains x
    · have hxs : x ∈ seen := by simpa using hx
      rw [if_pos hx, ih]
      simp only [List.mem_cons]
      constructor
      · rintro ⟨h1, h2⟩; exact ⟨Or.inr h1, h2⟩
      · rintro ⟨h1 | h1, h2⟩
        · exact absurd (h1 ▸ hxs) h2
        · exact ⟨h1, h2⟩
    · have hxs : x ∉ seen := by simpa using hx
      rw [if_neg hx]
      simp only [List.mem_cons, ih, List.mem_cons]
      constructor
      · rintro (h | ⟨h1, h2⟩)
        · exact ⟨Or.inl h, h ▸ hxs⟩
        · exact ⟨Or.inr h1, fun hs => h2 (Or.inr hs)⟩
      · rintro ⟨h1 | h1, h2⟩
        · exact Or.inl h1
        · by_cases hax : a = x
          · exact Or.inl hax
          · exact Or.inr ⟨h1, fun hs => by
              rcases hs with hs | hs
              · exact hax hs
              · exact h2 hs⟩

theorem mem_dedupFirst {α} [DecidableEq α] (l : List α) (a : α) :
    a ∈ dedupFirst l ↔ a ∈ l := by
  rw [dedupFirst, mem_dedupFirstAux]
  simp

theorem nodup_dedupFirstAux {α} [DecidableEq α] (l : List α) :
    ∀ seen : List α, (dedupFirstAux seen l).Nodup := by
  induction l with
  | nil => intro seen; simp [dedupFirstAux]
  | cons x rest ih =>
    intro seen
    simp only [dedupFirstAux]
    by_cases hx : seen.contains x
    · rw [if_pos hx]; exact ih seen
    · rw [if_neg hx]
      refine List.nodup_cons.2 ⟨fun hmem => ?_, ih (x :: seen)⟩
      rcases (mem_dedupFirstAux rest (x :: seen) x).1 hmem with ⟨_, habs⟩
      exact habs (List.mem_cons_self _ _)

theorem nodup_dedupFirst {α} [DecidableEq α] (l : List α) :
    (dedupFirst l).Nodup := nodup_dedupFirstAux l []

theorem insertLe_perm {α} (le : α → α → Bool) (a : α) (l : List α) :
    List.Perm (insertLe le a l) (a :: l) := by
  induction l with
  | nil => simp [insertLe]
  | cons b rest ih =>
    simp only [insertLe]
    by_cases h : le a b
    · simp [h]
    · simp only [h, if_neg]
      exact (ih.cons b).trans (List.Perm.swap a b rest)

theorem sortLe_perm {α} (le : α → α → Bool) (l : List α) :
    List.Perm (sortLe le l) l := by
  induction l with
  | nil => simp [sortLe]
  | cons x xs ih =>
    simpa [sortLe] using (insertLe_perm le x (sortLe le xs)).trans (ih.cons x)

theorem mem_sortLe {α} (le : α → α → Bool) (l : List α) (a : α) :
    a ∈ sortLe le l ↔ a ∈ l := (sortLe_perm le l).mem_iff

theorem nodup_sortLe {α} (le : α → α → Bool) (l : List α) (h : l.Nodup) :
    (sortLe le l).Nodup := ((sortLe_perm le l).nodup_iff).2 h

/-- If `a` strictly comes before every other element of `l`, insertion sort
puts it first. -/
theorem head_sortLe {α} (le : α → α → Bool) (l : List α) (a : α)
    (hmem : a ∈ l)
    (hdom : ∀ b ∈ l, b ≠ a → le a b = true ∧ le b a = false) :
    (sortLe le l).head? = some a := by
  induction l with
  | nil => simp at hmem
  | cons x xs ih =>
    simp only [sortLe]
    by_cases hxa : x = a
    · subst hxa
      cases hsort : sortLe le xs with
      | nil => simp [insertLe]
      | cons h t =>
        have hhx : h ∈ xs := by
          have : h ∈ sortLe le xs := by rw [hsort]; exact List.mem_cons_self _ _
          exact (mem_sortLe le xs h).1 this
        by_cases hha : h = x
        · subst hha
          simp only [insertLe]
          by_cases hle : le h h
          · simp [hle]
          · simp [hle]
        · have := hdom h (List.mem_cons_of_mem _ hhx) hha
          simp only [insertLe, this.1, if_pos]
          rfl
    · have hmem2 : a ∈ xs := by
        rcases List.mem_cons.1 hmem with h | h
        · exact absurd h.symm hxa
        · exact h
      have ih2 := ih hmem2 (fun b hb hba => hdom b (List.mem_cons_of_mem _ hb) hba)
      cases hsort : sortLe le xs with
      | nil => rw [hsort] at ih2; simp at ih2
      | cons h t =>
        rw [hsort] at ih2
        simp only [List.head?] at ih2
        have hha : h = a := by injection ih2
        subst hha
        have hx := hdom x (List.mem_cons_self _ _) hxa
        simp only [insertLe, hx.2]
        simp

theorem isExpired_eq_not_isAlive (m : Mem) (now : Nat) :
    isExpired m now = !(isAlive m now) := by
  unfold isExpired isAlive
  cases m.expires_at with
  | none => rfl
  | some e =>
    by_cases h : e ≤ now
    · simp [h, Nat.not_lt.2 h]
    · simp [h, Nat.lt_of_not_le h]

theorem getById_id (db : DB) (id : String) (m : Mem)
    (h : getById db id = some m) : m.id = id := by
  have := List.find?_some h
  simpa using this

theorem getById_mem (db : DB) (id : String) (m : Mem)
    (h : getById db id = some m) : m ∈ db.memories :=
  List.mem_of_find?_eq_some h


theorem map_if_eq_same (t : String) (l : List String) :
    l.map (fun v => if v == t then t else v) = l := by
  induction l with
  | nil => rfl
  | cons x xs ih =>
    simp only [List.map_cons, ih, List.cons.injEq, and_true]
    by_cases h : x == t
    · have hx : x = t := by simpa using h
      simp [h, hx]
    · simp [h]

theorem renameRow_same (t : String) (now : Nat) (m : Mem) :
    renameRow t t now m =
      { m with tags := dedupFirst m.tags, updated_at := now } := by
  unfold renameRow
  rw [map_if_eq_same]

/-! ## C3 -/

/-- C3 counterexample: the engine operation `renameTag(t, t, project?)` is
NOT a no-op.  On a store holding one default-project memory tagged "a" with
updated_at = 0, `renameTag "a" "a"` at time 5 reports updated = 1 (not 0)
and bumps the memory's updated_at to 5. -/
theorem renameTag_same_tag_counterexample :
    (renameTag dbTagA "a" "a" none 5).2.updated = 1 ∧
    ((renameTag dbTagA "a" "a" none 5).1.memories.map
      (fun m => m.updated_at)) = [5] ∧
    ¬ ((renameTag dbTagA "a" "a" none 5).2.updated = 0 ∧
       (renameTag dbTagA "a" "a" none 5).1.memories = dbTagA.memories) := by
  refine ⟨rfl, rfl, ?_⟩
  intro h
  cases h.1

/-- C3 (amended): the `old == new` short-circuit lives at the tool boundary,
not in the engine.  The rename_tag tool handler returns updated = 0 and
leaves the store untouched when old_tag = new_tag; the engine operation
`renameTag(t, t, project?)` instead rewrites every memory of the project
that carries t — returning their count and bumping each one's updated_at —
while leaving tag lists unchanged up to DISTINCT deduplication. -/
theorem renameTag_same_tag_split :
    (∀ (db : DB) (t : String) (now : Nat),
      renameTagTool db t t now =
        (db, { updated := 0, old_tag := t, new_tag := t })) ∧
    (∀ (db : DB) (t : String) (proj : Option String) (now : Nat),
      (renameTag db t t proj now).2 =
        { updated := (db.memories.filter (fun m =>
            m.project == proj.getD db.defaultProject &&
            m.tags.contains t)).length,
          old_tag := t, new_tag := t } ∧
      (renameTag db t t proj now).1.memories =
        db.memories.map (fun m =>
          if m.project == proj.getD db.defaultProject &&
             m.tags.contains t then
            { m with tags := dedupFirst m.tags, updated_at := now }
          else m)) := by
  constructor
  · intro db t now
    simp [renameTagTool]
  · intro db t proj now
    refine ⟨rfl, ?_⟩
    show db.memories.map _ = _
    apply List.map_congr_left
    intro m _
    by_cases h : (m.project == proj.getD db.defaultProject &&
        m.tags.contains t) = true
    · simp only [h, if_pos, if_true, renameRow_same]
    · rw [if_neg h, if_neg h]

theorem filter_key_length_eq_count {α β} [DecidableEq β] (key : α → β)
    (l : List α) (c : β) :
    (l.filter (fun x => key x == c)).length = (l.map key).count c := by
  rw [List.count_eq_countP, List.countP_map, List.countP_eq_length_filter]
  rfl

theorem sum_counts_over_dedup {α β} [DecidableEq β] (key : α → β)
    (l : List α) :
    ((dedupFirst (l.map key)).map
      (fun c => (l.filter (fun x => key x == c)).length)).sum = l.length := by
  have h1 : (dedupFirst (l.map key)).map
        (fun c => (l.filter (fun x => key x == c)).length)
      = (dedupFirst (l.map key)).map (fun c => (l.map key).count c) := by
    apply List.map_congr_left
    intro c _
    exact filter_key_length_eq_count key l c
  rw [h1]
  have hperm : List.Perm (dedupFirst (l.map key)) ((l.map key).dedup) := by
    rw [List.perm_ext_iff_of_nodup (nodup_dedupFirst _) (List.nodup_dedup _)]
    intro a
    rw [mem_dedupFirst, List.mem_dedup]
  rw [(hperm.map (fun c => (l.map key).count c)).sum_eq,
    List.sum_map_count_dedup_eq_length, List.length_map]

/-! ## C4 -/

/-- C4 counterexample: getStats counts expired memories.  On a store with
one expired (expires_at = 3 ≤ now = 5) and one alive memory, total is 2
while only 1 memory is alive, contradicting "total is the number of alive
memories in the project". -/
theorem getStats_counts_expired_counterexample :
    (getStats dbExpired none).total = 2 ∧
    (dbExpired.memories.filter (fun m =>
      m.project == "default" && isAlive m 5)).length = 1 ∧
    (getStats dbExpired none).total ≠
      (dbExpired.memories.filter (fun m =>
        m.project == "default" && isAlive m 5)).length := by
  refine ⟨by decide, by decide, by decide⟩

/-- C4 (amended): getStats aggregates over every memory of the project
regardless of expiry — none of its queries carries an alive condition.
total is the number of project rows, and each by_category entry counts the
project rows of that category (expired rows included in both). -/
theorem getStats_counts_all_rows :
    ∀ (db : DB) (proj : Option String),
      (getStats db proj).total =
        (db.memories.filter (fun m =>
          m.project == proj.getD db.defaultProject)).length ∧
      ∀ c cnt, (c, cnt) ∈ (getStats db proj).by_category →
        cnt = (db.memories.filter (fun m =>
          m.project == proj.getD db.defaultProject && m.category == c)).length := by
  intro db proj
  constructor
  · show ((dedupFirst _).map (fun c => (c, _)) |>.map _).sum = _
    rw [List.map_map]
    exact sum_counts_over_dedup (fun m => m.category)
      (db.memories.filter (fun m => m.project == proj.getD db.defaultProject))
  · intro c cnt hmem
    have hmem2 : (c, cnt) ∈ (dedupFirst ((db.memories.filter (fun m =>
        m.project == proj.getD db.defaultProject)).map (fun m => m.category))).map
        (fun c => (c, ((db.memories.filter (fun m =>
          m.project == proj.getD db.defaultProject)).filter
            (fun m => m.category == c)).length)) := by
      exact (mem_sortLe _ _ _).1 hmem
    rcases List.mem_map.1 hmem2 with ⟨c2, _, heq⟩
    have hc : c2 = c := congrArg Prod.fst heq
    subst hc
    have hcnt := congrArg Prod.snd heq
    simp only at hcnt
    rw [← hcnt, List.filter_filter]
    congr 1
    apply List.filter_congr
    intro x _
    exact Bool.and_comm _ _

theorem getStats_counts_all_rows_witness :
    2 = (dbExpired.memories.filter (fun m =>
      m.project == (none : Option String).getD dbExpired.defaultProject &&
      m.category == "code")).length ∧
    (getStats dbExpired none).total =
      (dbExpired.memories.filter (fun m =>
        m.project == (none : Option String).getD dbExpired.defaultProject)).length :=
  ⟨(getStats_counts_all_rows dbExpired none).2 "code" 2 (by decide),
   (getStats_counts_all_rows dbExpired none).1⟩

theorem head?_take_succ {α} (n : Nat) (l : List α) :
    (l.take (n + 1)).head? = l.head? := by
  cases l <;> rfl

/-! ## C10 -/

/-- C10: INSERT OR REPLACE in linkMemories replaces the whole edge row for an
existing (from_id, to_id) pair: relation, weight and auto_generated take the
new call's values (defaults related / 1.0 / 0) and created_at is reset to
the call time, so the original link timestamp is not preserved (the stored
row differs from the old one whenever the times differ) and, when the call
time is fresher than every other edge, the pair moves to the head of the
created_at-ordered listLinks page. -/
theorem linkMemories_upsert_replaces :
    ∀ (db : DB) (f t : String) (r : Option String) (w : Option Rat)
      (au : Option Nat) (now : Nat) (l0 : Link),
      l0 ∈ db.links → l0.from_id = f → l0.to_id = t →
      db.memories.any (fun m => m.id == f) = true →
      db.memories.any (fun m => m.id == t) = true →
      ∃ db1,
        linkMemories db f t r w au now =
          .ok (db1, { from_id := f, to_id := t, relation := r.getD "related",
                      weight := w.getD 1, auto_generated := au.getD 0,
                      created_at := now }) ∧
        getLink db1 f t =
          some { from_id := f, to_id := t, relation := r.getD "related",
                 weight := w.getD 1, auto_generated := au.getD 0,
                 created_at := now } ∧
        (∀ x ∈ db1.links, x.from_id = f → x.to_id = t →
          x = { from_id := f, to_id := t, relation := r.getD "related",
                weight := w.getD 1, auto_generated := au.getD 0,
                created_at := now }) ∧
        (l0.created_at ≠ now →
          ¬ ({ from_id := f, to_id := t, relation := r.getD "related",
               weight := w.getD 1, auto_generated := au.getD 0,
               created_at := now : Link } = l0)) ∧
        ((∀ b ∈ db.links, (¬ (b.from_id = f ∧ b.to_id = t)) →
            b.created_at < now) →
          ((listLinks db1 {}).2).head? =
            some { from_id := f, to_id := t, relation := r.getD "related",
                   weight := w.getD 1, auto_generated := au.getD 0,
                   created_at := now }) := by
  intro db f t r w au now l0 hl0 hf ht hmf hmt
  set lNew : Link :=
    { from_id := f, to_id := t, relation := r.getD "related",
      weight := w.getD 1, auto_generated := au.getD 0,
      created_at := now } with hlNew
  set db1 : DB :=
    { db with links :=
        (db.links.filter (fun x =>
          !(x.from_id == f && x.to_id == t))) ++ [lNew] } with hdb1
  have hrun : linkMemories db f t r w au now = .ok (db1, lNew) := by
    unfold linkMemories
    rw [hmf, hmt]
    rfl
  refine ⟨db1, hrun, ?_, ?_, ?_, ?_⟩
  · -- getLink finds the fresh row
    show (db1.links.find? (fun l => l.from_id == f && l.to_id == t)) = some lNew
    have hfil : (db.links.filter (fun x =>
        !(x.from_id == f && x.to_id == t))).find?
        (fun l => l.from_id == f && l.to_id == t) = none := by
      rw [List.find?_eq_none]
      intro x hx
      have := (List.mem_filter.1 hx).2
      simp only [Bool.not_eq_true'] at this
      simp [this]
    have : db1.links =
        (db.links.filter (fun x => !(x.from_id == f && x.to_id == t))) ++ [lNew] := rfl
    rw [this, List.find?_append, hfil]
    simp [hlNew]
  · -- every (f, t) row of the new table is the fresh row
    intro x hx hxf hxt
    rcases List.mem_append.1 hx with hx1 | hx2
    · have := (List.mem_filter.1 hx1).2
      rw [hxf, hxt] at this
      simp at this
    · simpa using hx2
  · -- the stored row is not the old one when the times differ
    intro hne heq
    apply hne
    have := congrArg Link.created_at heq
    simpa [hlNew] using this.symm
  · -- fresh timestamp puts the pair first in listLinks
    intro hfresh
    have hcond : ∀ l : Link,
        ((match (none : Option String) with
          | none => true | some f0 => f0 == "" || l.from_id == f0) &&
         (match (none : Option String) with
          | none => true | some t0 => t0 == "" || l.to_id == t0) &&
         (match (none : Option String) with
          | none => true | some r0 => r0 == "" || l.relation == r0)) = true := by
      intro l; rfl
    show (((sortLe linkBefore (db1.links.filter _)).drop 0).take 50).head? = some lNew
    rw [List.drop_zero]
    have hfl : db1.links.filter (fun l =>
        (match (none : Option String) with
          | none => true | some f0 => f0 == "" || l.from_id == f0) &&
        (match (none : Option String) with
          | none => true | some t0 => t0 == "" || l.to_id == t0) &&
        (match (none : Option String) with
          | none => true | some r0 => r0 == "" || l.relation == r0)) = db1.links := by
      apply List.filter_eq_self.2
      intro l _
      exact hcond l
    rw [hfl, head?_take_succ]
    apply head_sortLe
    · exact List.mem_append_right _ (List.mem_singleton.2 rfl)
    · intro b hb hbne
      rcases List.mem_append.1 hb with hb1 | hb2
      · have hbl : b ∈ db.links := (List.mem_filter.1 hb1).1
        have hbcond := (List.mem_filter.1 hb1).2
        have hblt : b.created_at < now := by
          apply hfresh b hbl
          intro hc
          rw [hc.1, hc.2] at hbcond
          simp at hbcond
        constructor
        · simp [linkBefore, hlNew, hblt]
        · simp [linkBefore, hlNew]
          omega
      · exact absurd (List.mem_singleton.1 hb2) hbne

/-- C10 witness: on a store with edge a→b (relation caused, auto_generated 1,
created_at 0) and a fresher call time 5, the upsert yields the default row
with created_at 5 and getLink returns it. -/
theorem linkMemories_upsert_witness :
    ∃ db1,
      linkMemories dbOldLink "a" "b" none none none 5 =
        .ok (db1, { from_id := "a", to_id := "b", relation := "related",
                    weight := 1, auto_generated := 0, created_at := 5 }) ∧
      getLink db1 "a" "b" =
        some { from_id := "a", to_id := "b", relation := "related",
               weight := 1, auto_generated := 0, created_at := 5 } := by
  obtain ⟨db1, hrun, hget, -, -, -⟩ :=
    linkMemories_upsert_replaces dbOldLink "a" "b" none none none 5
      { from_id := "a", to_id := "b", relation := "caused",
        weight := 1, auto_generated := 1, created_at := 0 }
      (by decide) rfl rfl (by decide) (by decide)
  exact ⟨db1, hrun, hget⟩

/-! ## C2 -/

/-- C2 failing input: whitespace-only content.  Zod's ContentField checks
the raw length (min 1) before any trim, so content " " passes validation;
the engine then trims and inserts, leaving a stored memory whose content is
empty after trimming — no InvalidInput is raised.  By contrast the empty
string "" is rejected at the tool boundary, showing the intended gate. -/
theorem save_memory_whitespace_stored_empty :
    contentFieldOk " " = true ∧
    ((saveMemoryTool noAutoLink emptyDB "id-1" { content := " " } 5).toOption.map
      (fun p => (p.1.memories.map (fun m => m.content), p.2.content)))
      = some ([""], "") ∧
    (saveMemoryTool noAutoLink emptyDB "id-2" { content := "" } 5).toOption
      = none := by
  refine ⟨rfl, rfl, rfl⟩

/-! ## C1 -/

/-- C1 (spec-modelled): create with deduplicate = true whose trimmed content
matches an alive same-project memory inserts nothing — the store is returned
unchanged, so in particular no auto-link inference ran — and yields an
existing alive same-project memory with that content, flagged
_deduplicated. -/
theorem create_dedup_returns_existing :
    ∀ (al : AutoLinkFn) (db : DB) (id : String) (inp : CreateInput)
      (now : Nat),
      inp.deduplicate = some true →
      (db.memories.any (fun m =>
        m.project == inp.project.getD db.defaultProject && isAlive m now &&
        m.content == jsTrim inp.content)) = true →
      ∃ m, createWithDedup al db id inp now = .ok (db, m, true) ∧
        m ∈ db.memories ∧
        m.project = inp.project.getD db.defaultProject ∧
        isAlive m now = true ∧
        m.content = jsTrim inp.content := by
  intro al db id inp now hd hex
  have hsome : (db.memories.find? (fun m =>
      m.project == inp.project.getD db.defaultProject && isAlive m now &&
      m.content == jsTrim inp.content)).isSome := by
    rw [List.find?_isSome]
    rcases List.any_eq_true.1 hex with ⟨m, hm, hp⟩
    exact ⟨m, hm, hp⟩
  cases hfind : db.memories.find? (fun m =>
      m.project == inp.project.getD db.defaultProject && isAlive m now &&
      m.content == jsTrim inp.content) with
  | none => rw [hfind] at hsome; cases hsome
  | some m =>
    have hp := List.find?_some hfind
    simp only [Bool.and_eq_true, beq_iff_eq] at hp
    refine ⟨m, ?_, List.mem_of_find?_eq_some hfind, hp.1.1, hp.1.2, hp.2⟩
    unfold createWithDedup
    rw [if_pos hd, hfind]

/-- C1 witness: on a store whose alive default-project memory m2 has content
"c m2", a deduplicating create of "  c m2  " returns that memory with the
flag set and leaves the store untouched. -/
theorem create_dedup_returns_existing_witness :
    ∃ m, createWithDedup noAutoLink dbExpired "fresh-id"
        { content := "  c m2  ", deduplicate := some true } 5
        = .ok (dbExpired, m, true) ∧
      m ∈ dbExpired.memories ∧
      m.project = ((none : Option String).getD dbExpired.defaultProject) ∧
      isAlive m 5 = true ∧
      m.content = jsTrim "  c m2  " :=
  create_dedup_returns_existing noAutoLink dbExpired "fresh-id"
    { content := "  c m2  ", deduplicate := some true } 5 rfl (by decide)

/-! ## C8 -/

theorem insertMemRow_ok_inv (db : DB) (m : Mem) (now : Nat) (db1 : DB)
    (h : insertMemRow db m now = .ok db1) :
    db1.memories = db.memories ++ [m] ∧
    db1.history = db.history ++ [mkHist "create" db.nextHist m now] ∧
    db1.links = db.links := by
  unfold insertMemRow at h
  split at h
  · cases h
  · cases h
    exact ⟨rfl, rfl, rfl⟩

theorem createCore_ok_inv (db : DB) (id : String) (inp : CreateInput)
    (now : Nat) (db1 : DB) (m : Mem)
    (h : createCore db id inp now = .ok (db1, m)) :
    m = createRow db id inp now ∧
    db1.memories = db.memories ++ [m] ∧
    db1.history = db.history ++ [mkHist "create" db.nextHist m now] ∧
    db1.links = db.links := by
  unfold createCore at h
  cases hins : insertMemRow db (createRow db id inp now) now with
  | error e => rw [hins] at h; cases h
  | ok db2 =>
    rw [hins] at h
    have hdb : db1 = db2 ∧ m = createRow db id inp now := by
      cases h; exact ⟨rfl, rfl⟩
    obtain ⟨h1, h2⟩ := hdb
    subst h1
    subst h2
    have hinv := insertMemRow_ok_inv db (createRow db id inp now) now db1 hins
    exact ⟨rfl, hinv.1, hinv.2.1, hinv.2.2⟩

/-- C8: whatever the auto-link inference does — including raising a failure
at any point (the `AutoLinkFn` argument reports both its link-table effect
and a possible error) — create still returns the freshly inserted memory,
and the inserted row and its history entry are untouched: the failure never
propagates. -/
theorem create_swallows_autolink_failure :
    ∀ (al : AutoLinkFn) (db : DB) (id : String) (inp : CreateInput)
      (now : Nat) (db1 : DB) (m : Mem),
      createCore db id inp now = .ok (db1, m) →
      ∃ db2, create al db id inp now = .ok (db2, m) ∧
        db2.memories = db1.memories ∧
        db2.history = db1.history ∧
        m ∈ db2.memories := by
  intro al db id inp now db1 m h
  have hinv := createCore_ok_inv db id inp now db1 m h
  have hmem1 : m ∈ db1.memories := by
    rw [hinv.2.1]
    exact List.mem_append_right _ (List.mem_singleton.2 rfl)
  have hcreate : create al db id inp now =
      (if inp.auto_link = some false then Except.ok (db1, m)
       else .ok ({ db1 with links := (al db1 m).1 }, m)) := by
    unfold create
    rw [h]
  by_cases hal : inp.auto_link = some false
  · rw [hcreate, if_pos hal]
    exact ⟨db1, rfl, rfl, rfl, hmem1⟩
  · rw [hcreate, if_neg hal]
    exact ⟨{ db1 with links := (al db1 m).1 }, rfl, rfl, rfl, hmem1⟩

/-- C8 witness: a concrete create whose auto-link run reports a failure
still returns the inserted memory, present in the resulting store. -/
theorem create_swallows_autolink_failure_witness :
    ∃ db2 m, create failingAutoLink emptyDB "id-1" { content := "x" } 3
        = .ok (db2, m) ∧ m ∈ db2.memories := by
  obtain ⟨db2, h1, _, _, h4⟩ :=
    create_swallows_autolink_failure failingAutoLink emptyDB "id-1"
      { content := "x" } 3 _ _ rfl
  exact ⟨db2, _, h1, h4⟩

theorem find?_map_replace (l : List Mem) (mid : String) (m : Mem)
    (hm : (m.id == mid) = true)
    (hex : (l.find? (fun x => x.id == mid)).isSome) :
    (l.map (fun x => if x.id == mid then m else x)).find?
      (fun x => x.id == mid) = some m := by
  induction l with
  | nil => simp at hex
  | cons y ys ih =>
    simp only [List.map_cons]
    by_cases hy : (y.id == mid) = true
    · rw [if_pos hy]
      rw [List.find?_cons, hm]
    · rw [if_neg hy]
      have hyb : (y.id == mid) = false := by
        cases hyy : (y.id == mid) with
        | false => rfl
        | true => exact absurd hyy hy
      rw [List.find?_cons, hyb]
      rw [List.find?_cons, hyb] at hex
      exact ih hex

/-! ## C7 -/

/-- C7 counterexample: restore does not restore `project`.  On a store where
m1 was created in project "p1" (history row 1) and later migrated to "p2",
restoring history row 1 leaves the memory in "p2" even though the snapshot
says "p1" — stmtUpdate's SET list has no project column. -/
theorem restore_keeps_current_project_counterexample :
    ((restoreMemory dbMigrated "m1" 1 3).map (fun p => p.2.project)
      = some "p2") ∧
    ((dbMigrated.history.find? (fun e =>
        e.history_id == 1 && e.memory_id == "m1")).map (fun e => e.project)
      = some "p1") ∧
    ¬ ((restoreMemory dbMigrated "m1" 1 3).map (fun p => p.2.project) =
       (dbMigrated.history.find? (fun e =>
          e.history_id == 1 && e.memory_id == "m1")).map (fun e => e.project)) := by
  refine ⟨rfl, rfl, by decide⟩

/-- C7 (amended): for an existing memory and a history entry belonging to
it, restore sets the stored content, category, tags, metadata and expires_at
to the snapshot's values with a fresh updated_at, keeps the memory's current
project (and created_at), and appends exactly one new history row, an
"update" entry; restoring the create entry therefore reproduces the create
snapshot modulo updated_at and project. -/
theorem restoreMemory_applies_snapshot :
    ∀ (db : DB) (mid : String) (hid : Nat) (now : Nat) (cur : Mem)
      (h : HistEntry),
      getById db mid = some cur →
      db.history.find? (fun e =>
        e.history_id == hid && e.memory_id == mid) = some h →
      ∃ db1 m, restoreMemory db mid hid now = some (db1, m) ∧
        m.content = h.content ∧ m.category = h.category ∧ m.tags = h.tags ∧
        m.metadata = h.metadata ∧ m.expires_at = h.expires_at ∧
        m.project = cur.project ∧ m.created_at = cur.created_at ∧
        m.updated_at = now ∧
        db1.history = db.history ++ [mkHist "update" db.nextHist m now] ∧
        (mkHist "update" db.nextHist m now).operation = "update" ∧
        getById db1 mid = some m := by
  intro db mid hid now cur h hcur hfind
  have hfindm : db.memories.find? (fun x => x.id == mid) = some cur := hcur
  have hcurid : (cur.id == mid) = true := by
    have := List.find?_some hfindm
    simpa using this
  unfold restoreMemory
  rw [hcur, hfind]
  unfold applyUpdateRow
  rw [hfindm]
  refine ⟨_, _, rfl, rfl, rfl, rfl, rfl, rfl, rfl, rfl, rfl, rfl, rfl, ?_⟩
  unfold getById
  apply find?_map_replace
  · exact hcurid
  · rw [hfindm]; rfl

/-- C7 witness: restoring m1's create entry on the migrated store restores
content "v1" and bumps updated_at, while the project remains "p2". -/
theorem restoreMemory_applies_snapshot_witness :
    ∃ db1 m, restoreMemory dbMigrated "m1" 1 3 = some (db1, m) ∧
      m.content = "v1" ∧ m.project = "p2" ∧ m.updated_at = 3 := by
  obtain ⟨db1, m, hok, hc, -, -, -, -, hproj, -, hupd, -, -, -⟩ :=
    restoreMemory_applies_snapshot dbMigrated "m1" 1 3 _ _ rfl rfl
  exact ⟨db1, m, hok, hc, hproj, hupd⟩

/-! ## C6 support lemmas -/

theorem transaction_error {α} (f : DB → Except String (DB × α)) (db : DB)
    (e : String) (h : (transaction f db).2 = .error e) :
    (transaction f db).1 = db := by
  unfold transaction at h ⊢
  cases hf : f db with
  | ok p => rw [hf] at h; cases h
  | error e2 => rfl

theorem getById_isSome_iff (db : DB) (j : String) :
    (getById db j).isSome = true ↔ j ∈ db.memories.map (fun x => x.id) := by
  unfold getById
  rw [List.find?_isSome]
  constructor
  · rintro ⟨x, hx, hpx⟩
    exact List.mem_map.2 ⟨x, hx, by simpa using hpx⟩
  · rintro hmem
    rcases List.mem_map.1 hmem with ⟨x, hx, hid⟩
    exact ⟨x, hx, by simp [hid]⟩

theorem update_ids_eq (db : DB) (id : String) (inp : UpdateInput) (now : Nat)
    (db1 : DB) (m : Mem) (h : update db id inp now = some (db1, m)) :
    db1.memories.map (fun x => x.id) = db.memories.map (fun x => x.id) := by
  unfold update at h
  cases hex : getById db id with
  | none => rw [hex] at h; cases h
  | some ex =>
    rw [hex] at h
    have hfind : db.memories.find? (fun x => x.id == id) = some ex := hex
    have hexid : (ex.id == id) = true := by
      have := List.find?_some hfind
      simpa using this
    unfold applyUpdateRow at h
    rw [hfind] at h
    have hdb : db1.memories = db.memories.map (fun x =>
        if x.id == id then
          { ex with
            content := jsTrim (inp.content.getD ex.content),
            category := match inp.category with
              | some c => normalizeCategory (some c)
              | none => ex.category,
            tags := match inp.tags with
              | some t => normalizeTags (some t)
              | none => ex.tags,
            metadata := inp.metadata.getD ex.metadata,
            expires_at := match inp.expires_at with
              | some v => v
              | none => ex.expires_at,
            updated_at := now }
        else x) := by
      cases h; rfl
    rw [hdb, List.map_map]
    apply List.map_congr_left
    intro x _
    by_cases hxid : (x.id == id) = true
    · have h1 : ex.id = id := by simpa using hexid
      have h2 : x.id = id := by simpa using hxid
      simp only [Function.comp]
      rw [if_pos hxid]
      exact h1.trans h2.symm
    · simp only [Function.comp]
      rw [if_neg hxid]

theorem updateBatchStep_presence (now : Nat) (acc : DB × List Mem × List String)
    (item : String × UpdateInput) (j : String) :
    (getById (updateBatchStep now acc item).1 j).isSome =
      (getById acc.1 j).isSome := by
  unfold updateBatchStep
  cases hu : update acc.1 item.1 item.2 now with
  | none => rfl
  | some p =>
    obtain ⟨db1, m⟩ := p
    show (getById db1 j).isSome = _
    by_cases hin : (getById acc.1 j).isSome = true
    · rw [hin, getById_isSome_iff,
        update_ids_eq acc.1 item.1 item.2 now db1 m hu,
        ← getById_isSome_iff]
      exact hin
    · have hin2 : (getById acc.1 j).isSome = false := by
        cases hx : (getById acc.1 j).isSome
        · rfl
        · exact absurd hx hin
      rw [hin2]
      cases hx : (getById db1 j).isSome
      · rfl
      · exfalso
        rw [getById_isSome_iff,
          update_ids_eq acc.1 item.1 item.2 now db1 m hu,
          ← getById_isSome_iff, hin2] at hx
        cases hx

theorem updateBatch_fold_mono (now : Nat) :
    ∀ (items : List (String × UpdateInput)) (acc : DB × List Mem × List String),
      ∃ extra, (items.foldl (updateBatchStep now) acc).2.2 = acc.2.2 ++ extra := by
  intro items
  induction items with
  | nil => intro acc; exact ⟨[], by simp⟩
  | cons i rest ih =>
    intro acc
    rcases ih (updateBatchStep now acc i) with ⟨extra, hextra⟩
    cases hu : update acc.1 i.1 i.2 now with
    | none =>
      have hstep : updateBatchStep now acc i = (acc.1, acc.2.1, acc.2.2 ++ [i.1]) := by
        unfold updateBatchStep
        rw [hu]
      rw [hstep] at hextra
      refine ⟨[i.1] ++ extra, ?_⟩
      rw [List.foldl_cons, hstep, hextra]
      simp [List.append_assoc]
    | some p =>
      obtain ⟨db1, m⟩ := p
      have hstep : updateBatchStep now acc i = (db1, acc.2.1 ++ [m], acc.2.2) := by
        unfold updateBatchStep
        rw [hu]
      rw [hstep] at hextra
      refine ⟨extra, ?_⟩
      rw [List.foldl_cons, hstep, hextra]

theorem updateBatch_fold_notFound (now : Nat) :
    ∀ (db : DB) (items : List (String × UpdateInput))
      (acc : DB × List Mem × List String),
      (∀ j, (getById acc.1 j).isSome = (getById db j).isSome) →
      ∀ p ∈ items, getById db p.1 = none →
        p.1 ∈ (items.foldl (updateBatchStep now) acc).2.2 := by
  intro db items
  induction items with
  | nil => intro acc _ p hp; cases hp
  | cons i rest ih =>
    intro acc hpres p hp hnone
    have hpres2 : ∀ j, (getById (updateBatchStep now acc i).1 j).isSome =
        (getById db j).isSome := fun j =>
      (updateBatchStep_presence now acc i j).trans (hpres j)
    rcases List.mem_cons.1 hp with hpi | hprest
    · subst hpi
      have haccnone : getById acc.1 p.1 = none := by
        have := hpres p.1
        rw [hnone] at this
        cases hacc : getById acc.1 p.1 with
        | none => rfl
        | some v => rw [hacc] at this; cases this
      have hstep : updateBatchStep now acc p = (acc.1, acc.2.1, acc.2.2 ++ [p.1]) := by
        unfold updateBatchStep update
        rw [haccnone]
      rw [List.foldl_cons, hstep]
      rcases updateBatch_fold_mono now rest (acc.1, acc.2.1, acc.2.2 ++ [p.1]) with
        ⟨extra, hextra⟩
      rw [hextra]
      simp
    · rw [List.foldl_cons]
      exact ih (updateBatchStep now acc i) hpres2 p hprest hnone

theorem deleteMem_absent (db : DB) (id : String) (now : Nat) (j : String)
    (h : getById db j = none) : getById (deleteMem db id now).1 j = none := by
  unfold deleteMem
  cases hf : db.memories.find? (fun m => m.id == id) with
  | none => exact h
  | some old =>
    show (db.memories.filter _).find? (fun m => m.id == j) = none
    rw [List.find?_eq_none]
    intro x hx
    have hx2 : x ∈ db.memories := (List.mem_filter.1 hx).1
    have := List.find?_eq_none.1 h x hx2
    simpa using this

theorem deleteBatchStep_absent (now : Nat) (acc : DB × Nat × List String)
    (id : String) (j : String) (h : getById acc.1 j = none) :
    getById (deleteBatchStep now acc id).1 j = none := by
  unfold deleteBatchStep
  cases hd : deleteMem acc.1 id now with
  | mk db1 flag =>
    have : db1 = (deleteMem acc.1 id now).1 := by rw [hd]
    cases flag
    · show getById db1 j = none
      rw [this]
      exact deleteMem_absent acc.1 id now j h
    · show getById db1 j = none
      rw [this]
      exact deleteMem_absent acc.1 id now j h

theorem deleteBatch_fold_mono (now : Nat) :
    ∀ (ids : List String) (acc : DB × Nat × List String),
      ∃ extra, (ids.foldl (deleteBatchStep now) acc).2.2 = acc.2.2 ++ extra := by
  intro ids
  induction ids with
  | nil => intro acc; exact ⟨[], by simp⟩
  | cons i rest ih =>
    intro acc
    rcases ih (deleteBatchStep now acc i) with ⟨extra, hextra⟩
    cases hd : deleteMem acc.1 i now with
    | mk db1 flag =>
      cases flag
      · have hstep : deleteBatchStep now acc i = (db1, acc.2.1, acc.2.2 ++ [i]) := by
          unfold deleteBatchStep
          rw [hd]
        rw [hstep] at hextra
        refine ⟨[i] ++ extra, ?_⟩
        rw [List.foldl_cons, hstep, hextra]
        simp [List.append_assoc]
      · have hstep : deleteBatchStep now acc i = (db1, acc.2.1 + 1, acc.2.2) := by
          unfold deleteBatchStep
          rw [hd]
        rw [hstep] at hextra
        refine ⟨extra, ?_⟩
        rw [List.foldl_cons, hstep, hextra]

theorem deleteBatch_fold_notFound (now : Nat) :
    ∀ (db : DB) (ids : List String) (acc : DB × Nat × List String),
      (∀ j, getById db j = none → getById acc.1 j = none) →
      ∀ i ∈ ids, getById db i = none →
        i ∈ (ids.foldl (deleteBatchStep now) acc).2.2 := by
  intro db ids
  induction ids with
  | nil => intro acc _ i hi; cases hi
  | cons i0 rest ih =>
    intro acc habs i hi hnone
    have habs2 : ∀ j, getById db j = none →
        getById (deleteBatchStep now acc i0).1 j = none := fun j hj =>
      deleteBatchStep_absent now acc i0 j (habs j hj)
    rcases List.mem_cons.1 hi with hii | hirest
    · subst hii
      have haccnone : getById acc.1 i = none := habs i hnone
      have hdel : deleteMem acc.1 i now = (acc.1, false) := by
        unfold deleteMem
        rw [show acc.1.memories.find? (fun m => m.id == i) = none from haccnone]
      have hstep : deleteBatchStep now acc i = (acc.1, acc.2.1, acc.2.2 ++ [i]) := by
        unfold deleteBatchStep
        rw [hdel]
      rw [List.foldl_cons, hstep]
      rcases deleteBatch_fold_mono now rest (acc.1, acc.2.1, acc.2.2 ++ [i]) with
        ⟨extra, hextra⟩
      rw [hextra]
      simp
    · rw [List.foldl_cons]
      exact ih (deleteBatchStep now acc i0) habs2 i hirest hnone

theorem importFold_all_skipped (al : AutoLinkFn) (up : Bool) (now : Nat) :
    ∀ (pairs : List (ImportRow × String)) (acc : DB × List String × Nat),
      (∀ p ∈ pairs, jsTrim p.1.content = "") →
      pairs.foldlM (importStep al up now) acc =
        .ok (acc.1, acc.2.1, acc.2.2 + pairs.length) := by
  intro pairs
  induction pairs with
  | nil => intro acc _; rfl
  | cons p rest ih =>
    intro acc hall
    obtain ⟨row, fid⟩ := p
    have hskip : importStep al up now acc (row, fid)
        = .ok (acc.1, acc.2.1, acc.2.2 + 1) := by
      show (if jsTrim row.content = "" then
          Except.ok (acc.1, acc.2.1, acc.2.2 + 1) else _) = _
      rw [if_pos (show jsTrim row.content = "" from
        hall (row, fid) (List.mem_cons_self _ _))]
    rw [List.foldlM_cons, hskip]
    show rest.foldlM (importStep al up now) (acc.1, acc.2.1, acc.2.2 + 1) = _
    rw [ih (acc.1, acc.2.1, acc.2.2 + 1)
      (fun q hq => hall q (List.mem_cons_of_mem _ hq))]
    have harith : acc.2.2 + 1 + rest.length
        = acc.2.2 + ((row, fid) :: rest).length := by
      simp only [List.length_cons]
      omega
    rw [harith]

/-! ## C6 -/

/-- C6: each batch operation runs inside one transaction.  If the body
raises (for example an IntegrityError from a duplicate PRIMARY KEY on an
insert), the whole batch leaves the store exactly as it was — none of the
items' effects survive.  updateBatch and deleteBatch never raise for a
missing id: they return a structured .ok result in which every id absent
from the store appears in the notFound list; importBatch counts empty-
content rows as skipped without inserting or aborting anything. -/
theorem batch_ops_transactional :
    (∀ (al : AutoLinkFn) (db : DB) (ids : List String)
       (inputs : List CreateInput) (now : Nat) (e : String),
       (createBatch al db ids inputs now).2 = .error e →
       (createBatch al db ids inputs now).1 = db) ∧
    (∀ (al : AutoLinkFn) (db : DB) (rows : List ImportRow)
       (fresh : List String) (up : Bool) (now : Nat) (e : String),
       (importBatch al db rows fresh up now).2 = .error e →
       (importBatch al db rows fresh up now).1 = db) ∧
    (∀ (db : DB) (items : List (String × UpdateInput)) (now : Nat),
       ∃ r, (updateBatch db items now).2 = .ok r ∧
         ∀ p ∈ items, getById db p.1 = none → p.1 ∈ r.2) ∧
    (∀ (db : DB) (ids : List String) (now : Nat),
       ∃ r, (deleteBatch db ids now).2 = .ok r ∧
         ∀ i ∈ ids, getById db i = none → i ∈ r.2) ∧
    (∀ (al : AutoLinkFn) (db : DB) (rows : List ImportRow)
       (fresh : List String) (up : Bool) (now : Nat),
       (∀ row ∈ rows, jsTrim row.content = "") →
       rows.length ≤ fresh.length →
       importBatch al db rows fresh up now = (db, .ok (0, rows.length, []))) := by
  refine ⟨?_, ?_, ?_, ?_, ?_⟩
  · intro al db ids inputs now e h
    unfold createBatch at h ⊢
    by_cases hemp : inputs.isEmpty = true
    · rw [if_pos hemp]
    · rw [if_neg hemp] at h ⊢
      exact transaction_error _ db e h
  · intro al db rows fresh up now e h
    unfold importBatch at h ⊢
    by_cases hemp : rows.isEmpty = true
    · rw [if_pos hemp]
    · rw [if_neg hemp] at h ⊢
      exact transaction_error _ db e h
  · intro db items now
    unfold updateBatch
    by_cases hemp : items.isEmpty = true
    · have : items = [] := List.isEmpty_iff.1 hemp
      subst this
      exact ⟨([], []), by simp, fun p hp => absurd hp (List.not_mem_nil p)⟩
    · rw [if_neg hemp]
      unfold transaction
      refine ⟨(items.foldl (updateBatchStep now) (db, [], [])).2, rfl, ?_⟩
      intro p hp hnone
      exact updateBatch_fold_notFound now db items (db, [], [])
        (fun _ => rfl) p hp hnone
  · intro db ids now
    unfold deleteBatch
    by_cases hemp : ids.isEmpty = true
    · have : ids = [] := List.isEmpty_iff.1 hemp
      subst this
      exact ⟨(0, []), by simp, fun i hi => absurd hi (List.not_mem_nil i)⟩
    · rw [if_neg hemp]
      unfold transaction
      refine ⟨(ids.foldl (deleteBatchStep now) (db, 0, [])).2, rfl, ?_⟩
      intro i hi hnone
      exact deleteBatch_fold_notFound now db ids (db, 0, [])
        (fun _ hj => hj) i hi hnone
  · intro al db rows fresh up now hall hlen
    unfold importBatch
    by_cases hemp : rows.isEmpty = true
    · have : rows = [] := List.isEmpty_iff.1 hemp
      subst this
      simp
    · have hfold := importFold_all_skipped al up now (rows.zip fresh) (db, [], 0)
        (fun p hp => hall p.1 (List.of_mem_zip hp).1)
      have hzlen : (rows.zip fresh).length = rows.length := by
        rw [List.length_zip]
        omega
      rw [if_neg hemp]
      unfold transaction
      simp [hfold, Except.map, hzlen]

/-- C6 witness: a createBatch whose second item reuses the first's fresh id
hits the PRIMARY KEY and rolls the whole batch back (the store is unchanged
even though the first insert had succeeded inside the transaction); a
one-row import with whitespace-only content is skipped, not an error. -/
theorem batch_ops_transactional_witness :
    (createBatch noAutoLink emptyDB ["x", "x"]
      [{ content := "a" }, { content := "b" }] 7).1 = emptyDB ∧
    importBatch noAutoLink dbTagA [{ content := "   " }] ["f1"] false 9
      = (dbTagA, .ok (0, 1, [])) :=
  ⟨batch_ops_transactional.1 noAutoLink emptyDB ["x", "x"]
      [{ content := "a" }, { content := "b" }] 7
      "IntegrityError: UNIQUE constraint failed: memories.id" rfl,
   batch_ops_transactional.2.2.2.2 noAutoLink dbTagA
      [{ content := "   " }] ["f1"] false 9 (by decide) (by decide)⟩

theorem mem_page {α} (le : α → α → Bool) (l : List α) (off lim : Nat) (a : α)
    (h : a ∈ ((sortLe le l).drop off).take lim) : a ∈ l := by
  have h1 := List.mem_of_mem_take h
  have h2 := List.mem_of_mem_drop h1
  exact (mem_sortLe le l a).1 h2

theorem exists_enumFrom_mem {α} (l : List α) (a : α) :
    ∀ n, a ∈ l → ∃ i, (i, a) ∈ l.enumFrom n := by
  induction l with
  | nil => intro n h; cases h
  | cons x xs ih =>
    intro n h
    rcases List.mem_cons.1 h with hx | hxs
    · exact ⟨n, by rw [hx, List.enumFrom_cons]; exact List.mem_cons_self _ _⟩
    · rcases ih (n + 1) hxs with ⟨i, hi⟩
      exact ⟨i, by rw [List.enumFrom_cons]; exact List.mem_cons_of_mem _ hi⟩

theorem exists_enum_mem {α} (l : List α) (a : α) (h : a ∈ l) :
    ∃ i, (i, a) ∈ l.enum := exists_enumFrom_mem l a 0 h

/-! ## C9 -/

/-- C9: an expired memory (expires_at non-null and ≤ now) is invisible to
listWithTotal, searchWithTotal (whatever the FTS oracle matches) and
getContextSnapshot — each returns only alive rows and counts only alive
rows; purgeExpired physically deletes exactly the expired set, returning
their count and ids, and appends one delete history row per purged memory
while keeping all earlier history rows; and every history row of a memory
remains readable through getHistory afterwards. -/
theorem expired_memories_lifecycle :
    (∀ (db : DB) (now : Nat) (inp : ListInput) (m : Mem),
       m ∈ (listWithTotal db now inp).1 → isAlive m now = true) ∧
    (∀ (fm : Mem → Bool) (rb : Mem → Mem → Bool) (db : DB) (now : Nat)
       (inp : SearchInput) (m : Mem),
       m ∈ (searchWithTotal fm rb db now inp).1 → isAlive m now = true) ∧
    (∀ (db : DB) (now : Nat) (k : Nat) (pl : Option Nat) (ti : Bool)
       (proj : Option String),
       (getContextSnapshot db now k pl ti proj).total =
         (db.memories.filter (fun m =>
           m.project == proj.getD db.defaultProject && isAlive m now)).length ∧
       ∀ c cs, (c, cs) ∈ (getContextSnapshot db now k pl ti proj).by_category →
         ∀ s ∈ cs.recent, ∃ m ∈ db.memories,
           isAlive m now = true ∧
           (m.project == proj.getD db.defaultProject) = true ∧
           m.id = s.id) ∧
    (∀ (db : DB) (now : Nat),
       (purgeExpired db now).2.2 =
         (db.memories.filter (fun m => isExpired m now)).map (fun m => m.id) ∧
       (purgeExpired db now).2.1 =
         (db.memories.filter (fun m => isExpired m now)).length ∧
       (purgeExpired db now).1.memories =
         db.memories.filter (fun m => isAlive m now) ∧
       (∀ e ∈ db.history, e ∈ (purgeExpired db now).1.history) ∧
       (∀ m ∈ db.memories, isExpired m now = true →
         ∃ e ∈ (purgeExpired db now).1.history,
           e.operation = "delete" ∧ e.memory_id = m.id ∧
           e.content = m.content ∧ e.project = m.project)) ∧
    (∀ (db2 : DB) (mid : String) (e : HistEntry),
       e ∈ db2.history → e.memory_id = mid →
       e ∈ (getHistory db2 mid db2.history.length 0).2) := by
  refine ⟨?_, ?_, ?_, ?_, ?_⟩
  · -- listWithTotal
    intro db now inp m hm
    have h3 : m ∈ db.memories.filter (listFilter db now inp) := mem_page _ _ _ _ _ hm
    have h4 := (List.mem_filter.1 h3).2
    simp only [listFilter, Bool.and_eq_true] at h4
    exact h4.1.1.1.1.1.1.1.1
  · -- searchWithTotal
    intro fm rb db now inp m hm
    unfold searchWithTotal at hm
    by_cases hq : ftsTerms inp.query = []
    · rw [if_pos hq] at hm
      cases hm
    · rw [if_neg hq] at hm
      cases hsb : inp.sort_by with
      | none =>
        rw [hsb] at hm
        have h3 := mem_page _ _ _ _ _ hm
        have h4 := (List.mem_filter.1 h3).2
        simp only [searchFilter, Bool.and_eq_true] at h4
        exact h4.2.1.1.1.1.2
      | some sb =>
        rw [hsb] at hm
        have h3 := mem_page _ _ _ _ _ hm
        have h4 := (List.mem_filter.1 h3).2
        simp only [searchFilter, Bool.and_eq_true] at h4
        exact h4.2.1.1.1.1.2
  · -- getContextSnapshot
    intro db now k pl ti proj
    constructor
    · show ((dedupFirst _).map _ |>.map _).sum = _
      rw [List.map_map]
      exact sum_counts_over_dedup (fun m => m.category)
        (db.memories.filter (fun m =>
          m.project == proj.getD db.defaultProject && isAlive m now))
    · intro c cs hmem s hs
      rcases List.mem_map.1 hmem with ⟨c2, _, heq⟩
      have hcs : cs = { count := _, recent := _ } := (congrArg Prod.snd heq).symm
      rw [hcs] at hs
      simp only at hs
      rcases List.mem_map.1 hs with ⟨m, hmrec, hslim⟩
      have hm1 : m ∈ db.memories.filter (fun m =>
          m.project == proj.getD db.defaultProject && isAlive m now) := by
        have := List.mem_of_mem_take hmrec
        have h2 := (mem_sortLe _ _ _).1 this
        exact (List.mem_filter.1 h2).1
      have hpred := (List.mem_filter.1 hm1).2
      simp only [Bool.and_eq_true] at hpred
      refine ⟨m, (List.mem_filter.1 hm1).1, hpred.2, hpred.1, ?_⟩
      rw [← hslim]
  · -- purgeExpired
    intro db now
    refine ⟨rfl, ?_, ?_, ?_, ?_⟩
    · show ((db.memories.filter (fun m => isExpired m now)).map (fun m => m.id)).length = _
      rw [List.length_map]
    · show db.memories.filter (fun m => !(isExpired m now)) = _
      apply List.filter_congr
      intro m _
      rw [isExpired_eq_not_isAlive, Bool.not_not]
    · intro e he
      exact List.mem_append_left _ he
    · intro m hm hexp
      have hmf : m ∈ db.memories.filter (fun m => isExpired m now) :=
        List.mem_filter.2 ⟨hm, hexp⟩
      rcases exists_enum_mem _ m hmf with ⟨i, hi⟩
      refine ⟨mkHist "delete" (db.nextHist + i) m now, ?_, rfl, rfl, rfl, rfl⟩
      apply List.mem_append_right
      exact List.mem_map.2 ⟨(i, m), hi, rfl⟩
  · -- getHistory readability
    intro db2 mid e he hemid
    unfold getHistory
    have hef : e ∈ db2.history.filter (fun h => h.memory_id == mid) :=
      List.mem_filter.2 ⟨he, by simp [hemid]⟩
    have hlen : (sortLe histBefore
        (db2.history.filter (fun h => h.memory_id == mid))).length ≤
        db2.history.length := by
      rw [(sortLe_perm histBefore _).length_eq]
      exact List.length_filter_le _ _
    show e ∈ List.take db2.history.length (List.drop 0
      (sortLe histBefore (db2.history.filter (fun h => h.memory_id == mid))))
    rw [List.drop_zero, List.take_of_length_le hlen]
    exact (mem_sortLe _ _ _).2 hef

/-- C9 witness: on the store with one expired and one alive memory at
now = 5, the alive member of the default listWithTotal page is alive, and
purgeExpired returns exactly the expired ids. -/
theorem expired_memories_lifecycle_witness :
    isAlive (exMem "m2" "default" none [] "code" 0 2) 5 = true ∧
    (purgeExpired dbExpired 5).2.2 =
      (dbExpired.memories.filter (fun m => isExpired m 5)).map (fun m => m.id) :=
  ⟨expired_memories_lifecycle.1 dbExpired 5 {}
      (exMem "m2" "default" none [] "code" 0 2) (by decide),
   (expired_memories_lifecycle.2.2.2.1 dbExpired 5).1⟩

/-! ## C5 support: inversion lemmas for the CTE rows -/

theorem mem_travAnchor_iff (links : List Link) (relF : Option String)
    (origin : String) (r : TravRow) :
    r ∈ travAnchor links relF origin ↔ ∃ l ∈ links,
      (l.from_id == origin) = true ∧ relOk relF l = true ∧
      r = { to_id := l.to_id, relation := l.relation, weight := l.weight,
            auto_generated := l.auto_generated, depth := 1,
            path := [l.from_id, l.to_id] } := by
  unfold travAnchor
  simp only [List.mem_map, List.mem_filter, Bool.and_eq_true]
  constructor
  · rintro ⟨l, ⟨hl, hA, hB⟩, rfl⟩
    exact ⟨l, hl, hA, hB, rfl⟩
  · rintro ⟨l, hl, hA, hB, rfl⟩
    exact ⟨l, ⟨hl, hA, hB⟩, rfl⟩

theorem mem_travStep_iff (links : List Link) (relF : Option String)
    (maxDepth : Nat) (r0 r : TravRow) :
    r ∈ travStep links relF maxDepth r0 ↔
      r0.depth < maxDepth ∧ ∃ l ∈ links,
        (l.from_id == r0.to_id) = true ∧ relOk relF l = true ∧
        r0.path.contains l.to_id = false ∧
        r = { to_id := l.to_id, relation := l.relation, weight := l.weight,
              auto_generated := l.auto_generated, depth := r0.depth + 1,
              path := r0.path ++ [l.to_id] } := by
  unfold travStep
  by_cases h : r0.depth < maxDepth
  · rw [if_pos h]
    simp only [List.mem_map, List.mem_filter, Bool.and_eq_true,
      Bool.not_eq_true']
    constructor
    · rintro ⟨l, ⟨hl, ⟨hA, hB⟩, hC⟩, rfl⟩
      exact ⟨h, l, hl, hA, hB, hC, rfl⟩
    · rintro ⟨-, l, hl, hA, hB, hC, rfl⟩
      exact ⟨l, ⟨hl, ⟨hA, hB⟩, hC⟩, rfl⟩
  · rw [if_neg h]
    simp only [List.not_mem_nil, false_iff, not_and]
    intro h2
    exact absurd h2 h

/-! ## C5 support: reach sets -/

theorem reachSet_succ_mem (links : List Link) (relF : Option String)
    (origin : String) (n : Nat) (x : String)
    (h : x ∈ reachSet links relF origin n) :
    x ∈ reachSet links relF origin (n + 1) := by
  show x ∈ reachSet links relF origin n ++ _
  exact List.mem_append_left _ h

theorem reachSet_mono (links : List Link) (relF : Option String)
    (origin : String) (n m : Nat) (hnm : n ≤ m) (x : String)
    (h : x ∈ reachSet links relF origin n) :
    x ∈ reachSet links relF origin m := by
  induction m with
  | zero =>
    have : n = 0 := Nat.le_zero.1 hnm
    subst this
    exact h
  | succ k ih =>
    by_cases hk : n = k + 1
    · subst hk; exact h
    · have hle : n ≤ k := by omega
      exact reachSet_succ_mem links relF origin k x (ih hle)

theorem reachSet_edge (links : List Link) (relF : Option String)
    (origin : String) (n : Nat) (a : String) (l : Link)
    (ha : a ∈ reachSet links relF origin n) (hl : l ∈ links)
    (hfrom : (l.from_id == a) = true) (hrel : relOk relF l = true) :
    l.to_id ∈ reachSet links relF origin (n + 1) := by
  show l.to_id ∈ reachSet links relF origin n ++
    (reachSet links relF origin n).flatMap (nexts links relF)
  apply List.mem_append_right
  apply List.mem_flatMap.2
  refine ⟨a, ha, ?_⟩
  unfold nexts
  exact List.mem_map.2 ⟨l, List.mem_filter.2 ⟨hl, by simp [hfrom, hrel]⟩, rfl⟩

/-! ## C5 support: all CTE rows satisfy invariants -/

theorem travRows_all (links : List Link) (relF : Option String)
    (maxDepth : Nat) (P : TravRow → Prop)
    (hstep : ∀ r0 r, P r0 → r ∈ travStep links relF maxDepth r0 → P r) :
    ∀ (fuel : Nat) (front : List TravRow), (∀ r ∈ front, P r) →
      ∀ r ∈ travRows links relF maxDepth fuel front, P r := by
  intro fuel
  induction fuel with
  | zero => intro front hfront r hr; exact hfront r hr
  | succ n ih =>
    intro front hfront r hr
    rcases List.mem_append.1 hr with hr1 | hr2
    · exact hfront r hr1
    · refine ih (front.flatMap (travStep links relF maxDepth)) ?_ r hr2
      intro r2 hr2b
      rcases List.mem_flatMap.1 hr2b with ⟨r0, hr0, hstep2⟩
      exact hstep r0 r2 (hfront r0 hr0) hstep2

theorem anchor_rowOk (links : List Link) (relF : Option String)
    (origin : String) (maxDepth : Nat) (hmax : 1 ≤ maxDepth) :
    ∀ r ∈ travAnchor links relF origin,
      rowOk links relF origin maxDepth r := by
  intro r hr
  rcases (mem_travAnchor_iff links relF origin r).1 hr with ⟨l, hl, hA, hB, rfl⟩
  have hfrom : l.from_id = origin := by simpa using hA
  refine ⟨le_refl 1, hmax, rfl, by simp [hfrom], rfl, ?_⟩
  intro i w hw
  match i with
  | 0 =>
    have hwf : l.from_id = w := by simpa using hw
    subst hwf
    rw [hfrom]
    show origin ∈ [origin]
    exact List.mem_singleton.2 rfl
  | 1 =>
    have hwt : l.to_id = w := by simpa using hw
    subst hwt
    exact reachSet_edge links relF origin 0 origin l
      (List.mem_singleton.2 rfl) hl (by simp [hfrom]) hB
  | (n + 2) => simp at hw

theorem step_rowOk (links : List Link) (relF : Option String)
    (origin : String) (maxDepth : Nat) :
    ∀ r0 r, rowOk links relF origin maxDepth r0 →
      r ∈ travStep links relF maxDepth r0 →
      rowOk links relF origin maxDepth r := by
  intro r0 r hok hr
  obtain ⟨hd1, hd2, hlen, hhead, hlast, hlev⟩ := hok
  rcases (mem_travStep_iff links relF maxDepth r0 r).1 hr with
    ⟨hdlt, l, hl, hA, hB, hC, rfl⟩
  have hto : r0.to_id ∈ reachSet links relF origin r0.depth := by
    have hlast2 : r0.path[r0.path.length - 1]? = some r0.to_id := by
      rw [← List.getLast?_eq_getElem?]
      exact hlast
    have : r0.path.length - 1 = r0.depth := by omega
    rw [this] at hlast2
    exact hlev r0.depth r0.to_id hlast2
  refine ⟨by show 1 ≤ r0.depth + 1; omega,
    by show r0.depth + 1 ≤ maxDepth; omega, by simp [hlen], ?_,
    List.getLast?_concat _, ?_⟩
  · cases hp : r0.path with
    | nil => rw [hp] at hhead; cases hhead
    | cons x rest =>
      rw [hp] at hhead
      simp only [List.cons_append, List.head?_cons]
      simpa using hhead
  · intro i w hw
    have hibound : i < r0.path.length + 1 := by
      rw [List.getElem?_eq_some] at hw
      have := hw.1
      simpa using this
    by_cases hi : i < r0.path.length
    · rw [List.getElem?_append_left hi] at hw
      exact hlev i w hw
    · have hieq : i = r0.path.length := by omega
      subst hieq
      rw [List.getElem?_concat_length] at hw
      have hwto : l.to_id = w := by simpa using hw
      subst hwto
      have : r0.path.length = r0.depth + 1 := hlen
      rw [this]
      exact reachSet_edge links relF origin r0.depth r0.to_id l hto hl hA hB

theorem traverse_rowOk (links : List Link) (relF : Option String)
    (origin : String) (maxDepth : Nat) (hmax : 1 ≤ maxDepth) :
    ∀ r ∈ traverse links relF origin maxDepth,
      rowOk links relF origin maxDepth r :=
  travRows_all links relF maxDepth _
    (step_rowOk links relF origin maxDepth) maxDepth
    (travAnchor links relF origin)
    (anchor_rowOk links relF origin maxDepth hmax)

theorem traverse_no_origin (links : List Link) (relF : Option String)
    (origin : String) (maxDepth : Nat)
    (hno : ∀ l ∈ links, l.from_id = origin → l.to_id ≠ origin) :
    ∀ r ∈ traverse links relF origin maxDepth,
      r.to_id ≠ origin ∧ origin ∈ r.path := by
  apply travRows_all links relF maxDepth
    (fun r => r.to_id ≠ origin ∧ origin ∈ r.path)
  · intro r0 r h0 hr
    rcases (mem_travStep_iff links relF maxDepth r0 r).1 hr with
      ⟨-, l, hl, hA, hB, hC, rfl⟩
    constructor
    · intro hlo
      have hlo2 : l.to_id = origin := hlo
      have : l.to_id ∈ r0.path := by rw [hlo2]; exact h0.2
      have hcontains : r0.path.contains l.to_id = true := by
        simpa using this
      rw [hcontains] at hC
      cases hC
    · exact List.mem_append_left _ h0.2
  · intro r hr
    rcases (mem_travAnchor_iff links relF origin r).1 hr with ⟨l, hl, hA, hB, rfl⟩
    have hfrom : l.from_id = origin := by simpa using hA
    refine ⟨hno l hl hfrom, ?_⟩
    rw [← hfrom]
    exact List.mem_cons_self _ _

/-! ## C5 support: iterated frontiers inside travRows -/

theorem stepIter_subset (links : List Link) (relF : Option String)
    (maxDepth : Nat) :
    ∀ (k : Nat) (fuel : Nat) (front : List TravRow), k ≤ fuel →
      ∀ r ∈ stepIter links relF maxDepth k front,
        r ∈ travRows links relF maxDepth fuel front := by
  intro k
  induction k with
  | zero =>
    intro fuel front hk r hr
    cases fuel with
    | zero => exact hr
    | succ n => exact List.mem_append_left _ hr
  | succ j ih =>
    intro fuel front hk r hr
    cases fuel with
    | zero => omega
    | succ n =>
      have := ih n (front.flatMap (travStep links relF maxDepth))
        (Nat.le_of_succ_le_succ hk) r hr
      exact List.mem_append_right _ this

theorem stepIter_succ_mem (links : List Link) (relF : Option String)
    (maxDepth : Nat) :
    ∀ (k : Nat) (front : List TravRow) (r0 r : TravRow),
      r0 ∈ stepIter links relF maxDepth k front →
      r ∈ travStep links relF maxDepth r0 →
      r ∈ stepIter links relF maxDepth (k + 1) front := by
  intro k
  induction k with
  | zero =>
    intro front r0 r h0 hr
    show r ∈ front.flatMap (travStep links relF maxDepth)
    exact List.mem_flatMap.2 ⟨r0, h0, hr⟩
  | succ j ih =>
    intro front r0 r h0 hr
    exact ih (front.flatMap (travStep links relF maxDepth)) r0 r h0 hr

/-! ## C5 support: foldl Nat.min -/

theorem foldl_min_le_seed :
    ∀ (ds : List Nat) (s : Nat), ds.foldl Nat.min s ≤ s := by
  intro ds
  induction ds with
  | nil => intro s; exact le_refl s
  | cons y ys ih =>
    intro s
    calc (y :: ys).foldl Nat.min s = ys.foldl Nat.min (Nat.min s y) := rfl
      _ ≤ Nat.min s y := ih (Nat.min s y)
      _ ≤ s := Nat.min_le_left s y

theorem foldl_min_mem :
    ∀ (ds : List Nat) (d : Nat), ds.foldl Nat.min d ∈ d :: ds := by
  intro ds
  induction ds with
  | nil => intro d; exact List.mem_singleton.2 rfl
  | cons x xs ih =>
    intro d
    have h := ih (Nat.min d x)
    show List.foldl Nat.min (Nat.min d x) xs ∈ d :: x :: xs
    rcases List.mem_cons.1 h with h1 | h2
    · rw [h1]
      rcases Nat.le_total d x with hle | hle
      · have hmin : Nat.min d x = d := Nat.min_eq_left hle
        rw [hmin]
        exact List.mem_cons_self _ _
      · have hmin : Nat.min d x = x := Nat.min_eq_right hle
        rw [hmin]
        exact List.mem_cons.2 (Or.inr (List.mem_cons_self _ _))
    · exact List.mem_cons.2 (Or.inr (List.mem_cons.2 (Or.inr h2)))

theorem foldl_min_le :
    ∀ (ds : List Nat) (d : Nat) (x : Nat), x ∈ d :: ds →
      ds.foldl Nat.min d ≤ x := by
  intro ds
  induction ds with
  | nil =>
    intro d x hx
    have : x = d := List.mem_singleton.1 hx
    subst this
    exact le_refl x
  | cons y ys ih =>
    intro d x hx
    rcases List.mem_cons.1 hx with h1 | h2
    · subst h1
      calc (y :: ys).foldl Nat.min x = ys.foldl Nat.min (Nat.min x y) := rfl
        _ ≤ Nat.min x y := foldl_min_le_seed ys _
        _ ≤ x := Nat.min_le_left x y
    · rcases List.mem_cons.1 h2 with h3 | h4
      · subst h3
        calc (x :: ys).foldl Nat.min d = ys.foldl Nat.min (Nat.min d x) := rfl
          _ ≤ Nat.min d x := foldl_min_le_seed ys _
          _ ≤ x := Nat.min_le_right d x
      · exact ih (Nat.min d y) x (List.mem_cons.2 (Or.inr h4))

theorem minDepthFor_attained (rows : List TravRow) (tid : String)
    (r : TravRow) (hr : r ∈ rows) (ht : (r.to_id == tid) = true) :
    ∃ r0 ∈ rows, (r0.to_id == tid) = true ∧
      r0.depth = minDepthFor rows tid := by
  unfold minDepthFor
  cases hG : (rows.filter (fun r => r.to_id == tid)).map (fun r => r.depth) with
  | nil =>
    exfalso
    have : r.depth ∈ (rows.filter (fun r => r.to_id == tid)).map
        (fun r => r.depth) :=
      List.mem_map.2 ⟨r, List.mem_filter.2 ⟨hr, ht⟩, rfl⟩
    rw [hG] at this
    exact List.not_mem_nil _ this
  | cons d ds =>
    have hmem := foldl_min_mem ds d
    rw [← hG] at hmem
    rcases List.mem_map.1 hmem with ⟨r0, hr0f, hr0d⟩
    exact ⟨r0, (List.mem_filter.1 hr0f).1, (List.mem_filter.1 hr0f).2, hr0d⟩

theorem minDepthFor_le (rows : List TravRow) (tid : String)
    (r : TravRow) (hr : r ∈ rows) (ht : (r.to_id == tid) = true) :
    minDepthFor rows tid ≤ r.depth := by
  unfold minDepthFor
  cases hG : (rows.filter (fun r => r.to_id == tid)).map (fun r => r.depth) with
  | nil =>
    exfalso
    have : r.depth ∈ (rows.filter (fun r => r.to_id == tid)).map
        (fun r => r.depth) :=
      List.mem_map.2 ⟨r, List.mem_filter.2 ⟨hr, ht⟩, rfl⟩
    rw [hG] at this
    exact List.not_mem_nil _ this
  | cons d ds =>
    apply foldl_min_le
    rw [← hG]
    exact List.mem_map.2 ⟨r, List.mem_filter.2 ⟨hr, ht⟩, rfl⟩

/-! ## C5 support: exact reachability level -/

theorem reachSet_exact_level (links : List Link) (relF : Option String)
    (origin : String) :
    ∀ (n : Nat) (a : String), a ∈ reachSet links relF origin n →
      ∃ L, L ≤ n ∧ a ∈ reachSet links relF origin L ∧
        (L = 0 ∨ a ∉ reachSet links relF origin (L - 1)) := by
  intro n
  induction n with
  | zero => intro a ha; exact ⟨0, le_refl 0, ha, Or.inl rfl⟩
  | succ k ih =>
    intro a ha
    by_cases hk : a ∈ reachSet links relF origin k
    · rcases ih a hk with ⟨L, hL, h1, h2⟩
      exact ⟨L, Nat.le_succ_of_le hL, h1, h2⟩
    · exact ⟨k + 1, le_refl _, ha, Or.inr (by simpa using hk)⟩

/-! ## C5 support: completeness of the traversal -/

theorem reach_step_inv (links : List Link) (relF : Option String)
    (origin : String) (n : Nat) (v : String)
    (hv : v ∈ reachSet links relF origin (n + 1))
    (hnot : v ∉ reachSet links relF origin n) :
    ∃ a ∈ reachSet links relF origin n, ∃ l ∈ links,
      (l.from_id == a) = true ∧ relOk relF l = true ∧ l.to_id = v := by
  rcases List.mem_append.1 hv with h1 | h2
  · exact absurd h1 hnot
  · rcases List.mem_flatMap.1 h2 with ⟨a, ha, hnx⟩
    unfold nexts at hnx
    rcases List.mem_map.1 hnx with ⟨l, hlf, hlt⟩
    have hfl := List.mem_filter.1 hlf
    have hand := hfl.2
    rw [Bool.and_eq_true] at hand
    exact ⟨a, ha, l, hfl.1, hand.1, hand.2, hlt⟩

theorem trav_complete (links : List Link) (relF : Option String)
    (origin : String) (maxDepth : Nat) (hmax : 1 ≤ maxDepth) :
    ∀ (d : Nat), 1 ≤ d → d ≤ maxDepth → ∀ (v : String),
      v ∈ reachSet links relF origin d →
      v ∉ reachSet links relF origin (d - 1) →
      ∃ r ∈ stepIter links relF maxDepth (d - 1)
          (travAnchor links relF origin),
        r.to_id = v ∧ r.depth = d := by
  intro d
  induction d with
  | zero => intro h1; omega
  | succ k ih =>
    intro h1 h2 v hv hnot
    have hnot2 : v ∉ reachSet links relF origin k := by simpa using hnot
    rcases reach_step_inv links relF origin k v hv hnot2 with
      ⟨a, ha, l, hl, hA, hB, hto⟩
    cases k with
    | zero =>
      have hao : a = origin := List.mem_singleton.1 ha
      subst hao
      refine ⟨{ to_id := l.to_id, relation := l.relation, weight := l.weight,
                auto_generated := l.auto_generated, depth := 1,
                path := [l.from_id, l.to_id] }, ?_, hto, rfl⟩
      exact (mem_travAnchor_iff links relF a _).2 ⟨l, hl, hA, hB, rfl⟩
    | succ j =>
      rcases reachSet_exact_level links relF origin (j + 1) a ha with
        ⟨L, hLle, hLmem, hLmin⟩
      have hLeq : L = j + 1 := by
        by_contra hne
        have hLlt : L ≤ j := by omega
        have : v ∈ reachSet links relF origin (L + 1) :=
          hto ▸ reachSet_edge links relF origin L a l hLmem hl hA hB
        have : v ∈ reachSet links relF origin (j + 1) :=
          reachSet_mono links relF origin (L + 1) (j + 1) (by omega) v this
        exact hnot2 this
      subst hLeq
      have hLnot : a ∉ reachSet links relF origin j := by
        rcases hLmin with h0 | hmin
        · omega
        · simpa using hmin
      have hIH := ih (by omega) (by omega) a hLmem (by simpa using hLnot)
      rcases hIH with ⟨r0, hr0, hr0to, hr0d⟩
      have hr0trav : r0 ∈ traverse links relF origin maxDepth :=
        stepIter_subset links relF maxDepth j maxDepth _ (by omega) r0 hr0
      have hok := traverse_rowOk links relF origin maxDepth hmax r0 hr0trav
      obtain ⟨-, -, hlen, -, -, hlev⟩ := hok
      have hvpath : l.to_id ∉ r0.path := by
        intro hmem
        rcases List.mem_iff_getElem?.1 hmem with ⟨i, hi⟩
        have hibound : i < r0.path.length := (List.getElem?_eq_some.1 hi).1
        have : l.to_id ∈ reachSet links relF origin i := hlev i l.to_id hi
        have : v ∈ reachSet links relF origin i := hto ▸ this
        have : v ∈ reachSet links relF origin (j + 1) :=
          reachSet_mono links relF origin i (j + 1) (by omega) v this
        exact hnot2 this
      have hcont : r0.path.contains l.to_id = false := by
        rw [← Bool.not_eq_true]
        simpa using hvpath
      have hAr : (l.from_id == r0.to_id) = true := by
        rw [hr0to]
        exact hA
      have hstep : ({ to_id := l.to_id, relation := l.relation,
                      weight := l.weight,
                      auto_generated := l.auto_generated,
                      depth := r0.depth + 1,
                      path := r0.path ++ [l.to_id] } : TravRow) ∈
          travStep links relF maxDepth r0 :=
        (mem_travStep_iff links relF maxDepth r0 _).2
          ⟨by omega, l, hl, hAr, hB, hcont, rfl⟩
      refine ⟨_, stepIter_succ_mem links relF maxDepth j _ r0 _ hr0 hstep,
        hto, ?_⟩
      show r0.depth + 1 = j + 1 + 1
      omega

/-! ## C5 support: distinctness of emitted ids -/

theorem filterMap_key_nodup {β : Type} (key : β → String)
    (f : String → Option β) (ids : List String)
    (hids : ids.Nodup)
    (hkey : ∀ t b, f t = some b → key b = t) :
    ((ids.filterMap f).map key).Nodup := by
  induction ids with
  | nil => exact List.nodup_nil
  | cons x xs ih =>
    have hxs : xs.Nodup := (List.nodup_cons.1 hids).2
    have hx : x ∉ xs := (List.nodup_cons.1 hids).1
    cases hfx : f x with
    | none =>
      rw [List.filterMap_cons_none hfx]
      exact ih hxs
    | some b =>
      rw [List.filterMap_cons_some hfx]
      rw [List.map_cons]
      apply List.nodup_cons.2
      refine ⟨?_, ih hxs⟩
      intro hmem
      rcases List.mem_map.1 hmem with ⟨b2, hb2, hkb2⟩
      rcases List.mem_filterMap.1 hb2 with ⟨t, ht, hft⟩
      have h1 : key b2 = t := hkey t b2 hft
      have h2 : key b = x := hkey x b hfx
      rw [h1] at hkb2
      rw [h2] at hkb2
      subst hkb2
      exact hx ht

/-! ## C5 support: unfolding getRelatedDeep -/

theorem getRelatedDeep_eq_expanded (db : DB) (origin : String) (maxD : Nat)
    (relF : Option String) (project : Option String) (limit : Nat) :
    (getRelatedDeep db origin maxD relF project limit).2 =
      (sortLe (fun a b => a.depth < b.depth)
        ((dedupFirst ((traverse db.links relF origin
            (min 5 (max 1 maxD))).map (fun r => r.to_id))).filterMap
          (deepRowFor db (traverse db.links relF origin (min 5 (max 1 maxD)))
            (project.getD db.defaultProject)))).take limit := rfl

theorem rowOk_to_reach (links : List Link) (relF : Option String)
    (origin : String) (maxDepth : Nat) (r : TravRow)
    (hok : rowOk links relF origin maxDepth r) :
    r.to_id ∈ reachSet links relF origin r.depth := by
  obtain ⟨-, -, hlen, -, hlast, hlev⟩ := hok
  have hlast2 : r.path[r.path.length - 1]? = some r.to_id := by
    rw [← List.getLast?_eq_getElem?]
    exact hlast
  have heq : r.path.length - 1 = r.depth := by omega
  rw [heq] at hlast2
  exact hlev r.depth r.to_id hlast2

theorem deepRowFor_some (db : DB) (rows : List TravRow) (proj tid : String)
    (e : DeepResult) (h : deepRowFor db rows proj tid = some e) :
    e.memory.id = tid ∧ (e.memory.project == proj) = true ∧
    e.depth = minDepthFor rows tid ∧
    ∃ rep ∈ rows, (rep.to_id == tid) = true ∧
      rep.depth = minDepthFor rows tid := by
  simp only [deepRowFor] at h
  cases hrep : rows.find? (fun r =>
      r.to_id == tid && r.depth == minDepthFor rows tid) with
  | none =>
    rw [hrep] at h
    cases h
  | some rep =>
    rw [hrep] at h
    cases hm : getById db tid with
    | none =>
      rw [hm] at h
      cases h
    | some m =>
      rw [hm] at h
      have h2 : (if (m.project == proj) = true then
          some ({ memory := m, relation := rep.relation,
                  depth := minDepthFor rows tid, weight := rep.weight,
                  auto_generated := rep.auto_generated } : DeepResult)
        else none) = some e := h
      by_cases hproj : (m.project == proj) = true
      · rw [if_pos hproj] at h2
        have he := Option.some.inj h2
        have hfind := List.find?_some hrep
        rw [Bool.and_eq_true] at hfind
        have hdeq : rep.depth = minDepthFor rows tid := by
          simpa using hfind.2
        refine ⟨?_, ?_, ?_, rep, List.mem_of_find?_eq_some hrep,
          hfind.1, hdeq⟩
        · rw [← he]
          exact getById_id db tid m hm
        · rw [← he]
          exact hproj
        · rw [← he]
      · rw [if_neg hproj] at h2
        cases h2

/-- C5 (amended): getRelatedDeep with max_depth between 1 and 5, on a store
whose link graph has no self-loop at the origin, emits each memory id at
most once, never emits the origin itself, assigns each emitted memory a
depth equal to the minimum number of outgoing-edge hops from the origin, and
only emits memories belonging to the requested project (input.project or,
when absent, the database default project) — which need not be the origin's
own project.  The no-self-loop hypothesis is required: the SQL cycle guard
seeds the path with the origin only in the anchor member's `to`, so a direct
self-loop produces an anchor row whose target is the origin itself
(see the counterexample). -/
theorem getRelatedDeep_properties (db : DB) (origin : String) (maxD : Nat)
    (relF : Option String) (project : Option String) (limit : Nat)
    (h1 : 1 ≤ maxD) (h2 : maxD ≤ 5)
    (hno : ∀ l ∈ db.links, l.from_id = origin → l.to_id ≠ origin) :
    (((getRelatedDeep db origin maxD relF project limit).2.map
        (fun e => e.memory.id)).Nodup) ∧
    (∀ e ∈ (getRelatedDeep db origin maxD relF project limit).2,
      e.memory.id ≠ origin ∧
      (e.memory.project == project.getD db.defaultProject) = true ∧
      e.memory.id ∈ reachSet db.links relF origin e.depth ∧
      (∀ k, e.memory.id ∈ reachSet db.links relF origin k → e.depth ≤ k)) := by
  have hdc : min 5 (max 1 maxD) = maxD := by omega
  have hexp := getRelatedDeep_eq_expanded db origin maxD relF project limit
  rw [hdc] at hexp
  have hkey : ∀ t b, deepRowFor db (traverse db.links relF origin maxD)
      (project.getD db.defaultProject) t = some b → b.memory.id = t :=
    fun t b hb => (deepRowFor_some db _ _ t b hb).1
  constructor
  · rw [hexp]
    have hids : (dedupFirst ((traverse db.links relF origin maxD).map
        (fun r => r.to_id))).Nodup := nodup_dedupFirst _
    have hjn := filterMap_key_nodup (fun e => e.memory.id)
      (deepRowFor db (traverse db.links relF origin maxD)
        (project.getD db.defaultProject)) _ hids hkey
    have hperm := (sortLe_perm
      (fun (a b : DeepResult) => a.depth < b.depth)
      ((dedupFirst ((traverse db.links relF origin maxD).map
          (fun r => r.to_id))).filterMap
        (deepRowFor db (traverse db.links relF origin maxD)
          (project.getD db.defaultProject)))).map (fun e => e.memory.id)
    have hsn := hperm.nodup_iff.2 hjn
    rw [List.map_take]
    exact (List.take_sublist _ _).nodup hsn
  · intro e he
    rw [hexp] at he
    have hj : e ∈ (dedupFirst ((traverse db.links relF origin maxD).map
        (fun r => r.to_id))).filterMap
          (deepRowFor db (traverse db.links relF origin maxD)
            (project.getD db.defaultProject)) :=
      (mem_sortLe _ _ _).1 (List.mem_of_mem_take he)
    rcases List.mem_filterMap.1 hj with ⟨tid, htid, hf⟩
    obtain ⟨hid, hproj, hdep, rep, hrepm, hrept, hrepd⟩ :=
      deepRowFor_some db _ _ tid e hf
    have hne : tid ≠ origin := by
      rcases List.mem_map.1 ((mem_dedupFirst _ _).1 htid) with ⟨r, hr, hrto⟩
      have := (traverse_no_origin db.links relF origin maxD hno r hr).1
      rw [← hrto]
      exact this
    have hreptid : rep.to_id = tid := by simpa using hrept
    have hrepok := traverse_rowOk db.links relF origin maxD h1 rep hrepm
    have hreach0 := rowOk_to_reach db.links relF origin maxD rep hrepok
    have hreach : tid ∈ reachSet db.links relF origin e.depth := by
      rw [← hreptid, hdep, ← hrepd]
      exact hreach0
    refine ⟨by rw [hid]; exact hne, hproj, by rw [hid]; exact hreach, ?_⟩
    intro k hk
    rw [hid] at hk
    rcases reachSet_exact_level db.links relF origin k tid hk with
      ⟨L, hLk, hLmem, hLor⟩
    rcases hLor with h0 | hLnot
    · subst h0
      exact absurd (List.mem_singleton.1 hLmem) hne
    · have hL1 : 1 ≤ L := by
        by_contra hL0
        have : L = 0 := by omega
        subst this
        exact hne (List.mem_singleton.1 hLmem)
      have hdmax : rep.depth ≤ maxD := hrepok.2.1
      have hLmax : L ≤ maxD := by
        by_contra hgt
        have hge : rep.depth ≤ L - 1 := by omega
        have : tid ∈ reachSet db.links relF origin (L - 1) := by
          apply reachSet_mono db.links relF origin rep.depth (L - 1) hge
          rw [← hreptid]
          exact hreach0
        exact hLnot this
      rcases trav_complete db.links relF origin maxD h1 L hL1 hLmax tid
        hLmem hLnot with ⟨rl, hrl, hrlto, hrld⟩
      have hrlmem : rl ∈ traverse db.links relF origin maxD :=
        stepIter_subset db.links relF maxD (L - 1) maxD _ (by omega) rl hrl
      have hmin := minDepthFor_le (traverse db.links relF origin maxD) tid rl
        hrlmem (by rw [hrlto]; simp)
      rw [hrld] at hmin
      calc e.depth = minDepthFor (traverse db.links relF origin maxD) tid :=
            hdep
        _ ≤ L := hmin
        _ ≤ k := hLk

/-- C5 counterexample to the claim as stated: (1) on a store whose only
link is the self-loop a→a, getRelatedDeep emits the origin "a" itself —
the SQL cycle guard compares candidates against the accumulated path, but
the anchor row's target is never checked against the origin; (2) results
are scoped to the requested project (here the default project "default"),
not to the origin's project: in dbCrossProj the origin "a" lives in
project "p1", yet the emitted memory "b" lives in "default". -/
theorem getRelatedDeep_selfloop_counterexample :
    ((getRelatedDeep dbSelfLoop "a" 3 none none 50).2.map
        (fun e => e.memory.id)) = ["a"] ∧
    ((getRelatedDeep dbCrossProj "a" 3 none none 50).2.map
        (fun e => (e.memory.id, e.memory.project))) = [("b", "default")] ∧
    (getById dbCrossProj "a").map (fun m => m.project) = some "p1" := by
  refine ⟨?_, ?_, ?_⟩ <;> rfl

theorem getRelatedDeep_properties_witness :
    ((1 ≤ 3 ∧ 3 ≤ 5) ∧
      (∀ l ∈ dbOldLink.links, l.from_id = "a" → l.to_id ≠ "a")) ∧
    ((((getRelatedDeep dbOldLink "a" 3 none none 50).2.map
        (fun e => e.memory.id)).Nodup) ∧
     (∀ e ∈ (getRelatedDeep dbOldLink "a" 3 none none 50).2,
       e.memory.id ≠ "a" ∧
       (e.memory.project ==
         (none : Option String).getD dbOldLink.defaultProject) = true ∧
       e.memory.id ∈ reachSet dbOldLink.links none "a" e.depth ∧
       (∀ k, e.memory.id ∈ reachSet dbOldLink.links none "a" k →
         e.depth ≤ k))) :=
  ⟨⟨⟨by decide, by decide⟩, by decide⟩,
   getRelatedDeep_properties dbOldLink "a" 3 none none 50
     (by decide) (by decide) (by decide)⟩

end Engram
